import Mathlib

/-!
# Verification of `localization_flow/jtlocalize/core/localization_utils.py`

A shallow embedding of the core of the JTLocalize localization utilities:

* the two regular expressions `JTL_REGEX` and
  `HEADER_COMMENT_KEY_VALUE_TUPLES_REGEX` together with a small backtracking
  regular-expression engine mirroring Python's `re` semantics (leftmost match,
  greedy `*` backtracking from the longest attempt, lazy `*?` from the
  shortest, `re.findall` scanning for non-overlapping matches left to right),
* the key-escaping substitution `re.sub(r'([^\\])"', '\\1\\"', entry_key)`,
* the entry serialization `write_entry_to_file`,
* dictionary construction (`__generate_localization_dictionary_from_file`)
  with Python's last-write-wins assignment,
* the directory walk `extract_string_pairs_in_directory` with its per-file
  exception isolation, and
* the sorted serializers (`write_dict_to_new_file`).

Strings are embedded as `List Char`; Python text is UTF-16-decoded unicode,
whose code points coincide with `Char`.
-/

namespace JTLocalize

/-- Strings are modelled as lists of characters. -/
abbrev Str := List Char

/-- Captured groups: an association list from group number to captured text.
A later (re-)capture of a group is prepended, so the first entry for a group
number is the most recent capture, matching Python's group semantics. -/
abbrev Caps := List (Nat × Str)

/-- `cmap f l` concatenates `f` over `l` (the engine's backtracking list
monad).  A private clone of `List.flatMap` so that all lemmas used by the
engine are established in this file. -/
def cmap (f : α → List β) : List α → List β
  | [] => []
  | a :: l => f a ++ cmap f l

@[simp] theorem cmap_nil (f : α → List β) : cmap f [] = [] := rfl

@[simp] theorem cmap_cons (f : α → List β) (a : α) (l : List α) :
    cmap f (a :: l) = f a ++ cmap f l := rfl

/-- Pattern syntax: the fragment of Python regular expressions used by
`localization_utils.py`.  `lit` is a literal string, `cls` a single-character
class, `starG`/`starL` greedy and lazy Kleene star, `grp` a capturing group.
`.`/`.+?`/`[^x]*` etc. are all expressed through `cls` and the stars. -/
inductive Pat where
  | lit : Str → Pat
  | cls : (Char → Bool) → Pat
  | seq : Pat → Pat → Pat
  | starG : Pat → Pat
  | starL : Pat → Pat
  | grp : Nat → Pat → Pat

/-- Structural size of a pattern (every constructor counts at least 1). -/
def psize : Pat → Nat
  | .lit _ => 1
  | .cls _ => 1
  | .seq p q => psize p + psize q + 1
  | .starG p => psize p + 1
  | .starL p => psize p + 1
  | .grp _ p => psize p + 1

/-- Fuel bound: an upper bound on the depth of the backtracking call tree of
the matcher on pattern `p` and input `s`. -/
def fuelFor (p : Pat) (s : Str) : Nat := psize p * (s.length + 1)

/-- The backtracking matcher, fuel-indexed.  `matchesF n p s c` returns, in
Python's backtracking priority order, the list of `(remaining input, captures)`
pairs for every way `p` can match a prefix of `s` starting from captures `c`:

* a literal consumes itself or fails;
* a class consumes exactly one admissible character;
* `seq` tries continuations in order;
* a greedy star first tries one more iteration (longest-first overall), with
  the zero-iteration alternative last; a lazy star puts the zero-iteration
  alternative first.  As in Python, a star stops iterating when an iteration
  consumes no input;
* a group records the consumed text under its number (most recent capture
  first, as Python reports the last capture of a repeated group).
-/
def matchesF : Nat → Pat → Str → Caps → List (Str × Caps)
  | 0, _, _, _ => []
  | _ + 1, .lit l, s, c =>
      if l.isPrefixOf s then [(s.drop l.length, c)] else []
  | _ + 1, .cls f, s, c =>
      match s with
      | [] => []
      | a :: t => if f a then [(t, c)] else []
  | n + 1, .seq p q, s, c =>
      cmap (fun r => matchesF n q r.1 r.2) (matchesF n p s c)
  | n + 1, .grp i p, s, c =>
      (matchesF n p s c).map (fun r => (r.1, (i, s.take (s.length - r.1.length)) :: r.2))
  | n + 1, .starG p, s, c =>
      cmap (fun r => if r.1.length < s.length then matchesF n (.starG p) r.1 r.2 else [])
        (matchesF n p s c) ++ [(s, c)]
  | n + 1, .starL p, s, c =>
      (s, c) ::
      cmap (fun r => if r.1.length < s.length then matchesF n (.starL p) r.1 r.2 else [])
        (matchesF n p s c)

/-- The backtracking matcher: all matches of `p` against a prefix of `s`, in
Python priority order, each with its remaining input and captures. -/
def pmatches (p : Pat) (s : Str) (c : Caps) : List (Str × Caps) :=
  matchesF (fuelFor p s + 1) p s c

/-- Remaining-input options of a greedy character-class star, longest
consumption first, shortest (zero characters) last. -/
def runG (f : Char → Bool) : Str → List Str
  | [] => [[]]
  | a :: t => if f a then runG f t ++ [a :: t] else [a :: t]

/-- Remaining-input options of a lazy character-class star, shortest
consumption (zero characters) first. -/
def runL (f : Char → Bool) : Str → List Str
  | [] => [[]]
  | a :: t => (a :: t) :: (if f a then runL f t else [])

/-- A lower bound on the number of occurrences of a character that any match
of a pattern necessarily consumes. -/
def minC (x : Char) : Pat → Nat
  | .lit l => l.count x
  | .cls _ => 0
  | .seq p q => minC x p + minC x q
  | .starG _ => 0
  | .starL _ => 0
  | .grp _ p => minC x p

/-- `re.findall` scanning, fuel-indexed: at each position try the pattern;
on a match record its captures and continue after the consumed text (or one
character further on a zero-width match, as Python does); on a failure move
one character to the right.  The position one past the end of the input is
also tried, after which scanning stops. -/
def findAllF (p : Pat) : Nat → Str → List Caps
  | 0, _ => []
  | n + 1, s =>
    match (pmatches p s []).head? with
    | none =>
      match s with
      | [] => []
      | _ :: t => findAllF p n t
    | some r =>
      r.2 ::
        match s with
        | [] => []
        | _ :: t => if r.1.length < s.length then findAllF p n r.1 else findAllF p n t

/-- `re.findall p s`: the capture lists of all non-overlapping matches of `p`
in `s`, scanning left to right. -/
def findAll (p : Pat) (s : Str) : List Caps := findAllF p (s.length + 1) s

/-- Single quote character (`'`). -/
def sq : Char := Char.ofNat 39

/-- Backslash character. -/
def bsl : Char := Char.ofNat 92

/-- The character class `['"]`. -/
def quoteCls (c : Char) : Bool := c = sq || c = '"'

/-- `.` without `re.DOTALL`: any character except a newline. -/
def dotNoNL (c : Char) : Bool := c != '\n'

/-- `.` under `re.DOTALL`: any character. -/
def dotAll (_ : Char) : Bool := true

/-- A literal space, for the ` *` parts of the patterns. -/
def spaceCls (c : Char) : Bool := c = ' '

/-- `\s` on ASCII (Python 2 `re` without `re.UNICODE`): space, tab, newline,
carriage return, form feed, vertical tab. -/
def pySpace (c : Char) : Bool :=
  c = ' ' || c = '\t' || c = '\n' || c = '\r' || c = '\x0b' || c = '\x0c'

/-- `[^\n]`. -/
def notNL (c : Char) : Bool := c != '\n'

/-- `[^;]`. -/
def notSemi (c : Char) : Bool := c != ';'

/-- `(.+?)` without DOTALL: one character, then lazily zero or more. -/
def lazyPlusNoNL : Pat := .seq (.cls dotNoNL) (.starL (.cls dotNoNL))

/-- `JTL_REGEX = JTL\(['"](.+?)['"],\s*['"](.+?)['"]\)` (line 12 of
`localization_utils.py`), compiled without flags. -/
def JTL_REGEX : Pat :=
  .seq (.lit "JTL(".toList)
  (.seq (.cls quoteCls)
  (.seq (.grp 1 lazyPlusNoNL)
  (.seq (.cls quoteCls)
  (.seq (.lit [','])
  (.seq (.starG (.cls pySpace))
  (.seq (.cls quoteCls)
  (.seq (.grp 2 lazyPlusNoNL)
  (.seq (.cls quoteCls) (.lit [')'])))))))))

/-- One section-header block `/\*\*\* *[^\n]*? *\*\*\*/\n\n` of the strings
file record pattern. -/
def headerBlock : Pat :=
  .seq (.lit "/***".toList)
  (.seq (.starG (.cls spaceCls))
  (.seq (.starL (.cls notNL))
  (.seq (.starG (.cls spaceCls)) (.lit "***/\n\n".toList))))

/-- The block-comment part `/\* *[^;]* *\*/\n` of the strings file record
pattern (capture group 3). -/
def commentPart : Pat :=
  .seq (.lit "/*".toList)
  (.seq (.starG (.cls spaceCls))
  (.seq (.starG (.cls notSemi))
  (.seq (.starG (.cls spaceCls)) (.lit "*/\n".toList))))

/-- `;\s*\n` (after the closing quote of the value): the suffix of the record
pattern after group 5, written here as the two-character literal `";` shared
with the value's closing quote. -/
def kvQ9 : Pat := .seq (.starG (.cls pySpace)) (.lit ['\n'])

/-- `";\s*\n`. -/
def kvQ8 : Pat := .seq (.lit ['"', ';']) kvQ9

/-- `(.*?)";\s*\n` — the value capture (group 5) onwards. -/
def kvQ7 : Pat := .seq (.grp 5 (.starL (.cls dotAll))) kvQ8

/-- `"(.*?)";\s*\n`. -/
def kvQ6 : Pat := .seq (.lit ['"']) kvQ7

/-- ` *"(.*?)";\s*\n`. -/
def kvQ5 : Pat := .seq (.starG (.cls spaceCls)) kvQ6

/-- `= *"(.*?)";\s*\n`. -/
def kvQ4 : Pat := .seq (.lit ['=']) kvQ5

/-- ` *= *"(.*?)";\s*\n`. -/
def kvQ3 : Pat := .seq (.starG (.cls spaceCls)) kvQ4

/-- `" *= *"(.*?)";\s*\n` — everything after the key capture. -/
def kvQ2 : Pat := .seq (.lit ['"']) kvQ3

/-- `(.*?)" *= *"(.*?)";\s*\n` — the key capture (group 4) onwards. -/
def kvQ1 : Pat := .seq (.grp 4 (.starL (.cls dotAll))) kvQ2

/-- The tail `"(.*?)" *= *"(.*?)";\s*\n` of the strings file record pattern:
quoted key (group 4), `=`, quoted value (group 5), terminating `;` followed
by optional whitespace and a newline.  `.` matches newlines (`re.DOTALL`). -/
def keyValuePart : Pat := .seq (.lit ['"']) kvQ1

/-- `HEADER_COMMENT_KEY_VALUE_TUPLES_REGEX` (line 15 of
`localization_utils.py`):
`((/\*\*\* *[^\n]*? *\*\*\*/\n\n)*)(/\* *[^;]* *\*/\n)"(.*?)" *= *"(.*?)";\s*\n`
compiled with `re.MULTILINE | re.DOTALL` (no `^`/`$` occur, so only DOTALL
matters; it is reflected in `keyValuePart`'s use of `dotAll`). -/
def HEADER_COMMENT_KEY_VALUE_TUPLES_REGEX : Pat :=
  .seq (.grp 1 (.starG (.grp 2 headerBlock)))
  (.seq (.grp 3 commentPart) keyValuePart)

/-- The inner comment-splitting pattern `/\* (.*?) \*/` applied at line 114 of
`localization_utils.py` to the raw capture of group 3, compiled without
flags (so `.` does not match newlines). -/
def INNER_COMMENT_REGEX : Pat :=
  .seq (.lit "/* ".toList) (.seq (.grp 1 (.starL (.cls dotNoNL))) (.lit " */".toList))

/-- Group lookup: the most recent capture of group `i`, or `''` when the
group did not participate in the match (Python's `findall` reports `''`). -/
def grpGet : Caps → Nat → Str
  | [], _ => []
  | (j, v) :: d, i => if j = i then v else grpGet d i

/-! ## The operations of `localization_utils.py` -/

/-- `extract_header_comment_key_value_tuples_from_file` (lines 99–117): apply
the record pattern to the whole decoded file text via `re.findall`, then for
each match split the raw block-comment capture (group 3) into individual
comments with `re.findall("/\* (.*?) \*/", ...)`, producing
`(header_comment, comments, key, value)` tuples in file order. -/
def extract_header_comment_key_value_tuples_from_file (file_data : Str) :
    List (Str × List Str × Str × Str) :=
  (findAll HEADER_COMMENT_KEY_VALUE_TUPLES_REGEX file_data).map (fun caps =>
    (grpGet caps 1,
     (findAll INNER_COMMENT_REGEX (grpGet caps 3)).map (fun c => grpGet c 1),
     grpGet caps 4,
     grpGet caps 5))

/-- One parsed record, as consumed by the dictionary builder. -/
structure LocalizationEntry where
  comments : List Str
  key : Str
  value : Str
deriving DecidableEq, Repr

/-- The entry built from a parsed tuple (line 69):
`LocalizationEntry(comments, key, value)`. -/
def toEntry (t : Str × List Str × Str × Str) : LocalizationEntry :=
  ⟨t.2.1, t.2.2.1, t.2.2.2⟩

/-- Python dictionary assignment `d[k] = v`: replace the value in place if the
key is present (silently — no error, no warning), otherwise add the pair. -/
def pyDictSet [DecidableEq α] : List (α × β) → α → β → List (α × β)
  | [], k, v => [(k, v)]
  | (k', v') :: d, k, v => if k' = k then (k, v) :: d else (k', v') :: pyDictSet d k v

/-- Python dictionary lookup `d.get(k)`. -/
def pyDictGet [DecidableEq α] : List (α × β) → α → Option β
  | [], _ => none
  | (k', v') :: d, k => if k' = k then some v' else pyDictGet d k

/-- `__generate_localization_dictionary_from_file` (lines 55–72), after the
file has been read and parsed: build a `LocalizationEntry` from each tuple
and insert it keyed by the chosen attribute
(`localization_entry_attribute_name_for_key` is modelled as a selector
function).  Duplicate keys silently overwrite. -/
def generate_localization_dictionary
    (tuples : List (Str × List Str × Str × Str))
    (sel : LocalizationEntry → Str) : List (Str × LocalizationEntry) :=
  tuples.foldl (fun d t => pyDictSet d (sel (toEntry t)) (toEntry t)) []

/-- `generate_localization_key_to_entry_dictionary_from_file` (lines 75–84). -/
def generate_localization_key_to_entry_dictionary (file_data : Str) :
    List (Str × LocalizationEntry) :=
  generate_localization_dictionary
    (extract_header_comment_key_value_tuples_from_file file_data) (fun e => e.key)

/-- `generate_localization_value_to_entry_dictionary_from_file` (lines 87–96). -/
def generate_localization_value_to_entry_dictionary (file_data : Str) :
    List (Str × LocalizationEntry) :=
  generate_localization_dictionary
    (extract_header_comment_key_value_tuples_from_file file_data) (fun e => e.value)

/-- `extract_jtl_string_pairs_from_text_file` (lines 120–133), given the
file's text: all `JTL_REGEX` matches as (key, comment) pairs, in file
order, inserted into `results_dict`. -/
def extract_jtl_string_pairs (text : Str) : List (Str × Str) :=
  (findAll JTL_REGEX text).map (fun caps => (grpGet caps 1, grpGet caps 2))

/-- The insertion loop of `extract_jtl_string_pairs_from_text_file`
(lines 131–132): `results_dict[result_key] = result_comment` for each pair. -/
def extract_jtl_string_pairs_from_text_file
    (results_dict : List (Str × Str)) (text : Str) : List (Str × Str) :=
  (extract_jtl_string_pairs text).foldl (fun d p => pyDictSet d p.1 p.2) results_dict

/-- `extract_string_pairs_in_directory` (lines 136–163).  The directory walk
is modelled by the list of file names it visits, in walk order.  For each
file passing `filter_func`, `extract_func` is applied to the accumulator; it
either returns the updated accumulator or fails with an error message
(modelling a raised exception; the built-in extractor reads the file before
making any insertion, so a failure leaves the accumulator unchanged).  A
failure is caught: the walk prints `Error in file <name>` and the error and
continues with the next file.  Returns the accumulated dictionary and the
printed error lines.  `walkStep` is the body of the walk's inner loop
(lines 156–162). -/
def walkStep
    (extract_func : List (Str × Str) → Str → Except Str (List (Str × Str)))
    (filter_func : Str → Bool)
    (acc : List (Str × Str) × List Str) (file_name : Str) :
    List (Str × Str) × List Str :=
  if filter_func file_name then
    match extract_func acc.1 file_name with
    | .ok d => (d, acc.2)
    | .error e => (acc.1, acc.2 ++ ["Error in file ".toList ++ file_name, e])
  else acc

/-- The whole walk: fold `walkStep` over the visited files, starting from an
empty accumulator and an empty output log. -/
def extract_string_pairs_in_directory
    (extract_func : List (Str × Str) → Str → Except Str (List (Str × Str)))
    (filter_func : Str → Bool) (files : List Str) :
    List (Str × Str) × List Str :=
  files.foldl (walkStep extract_func filter_func) ([], [])

/-- The key escaping of `write_entry_to_file` (line 174):
`re.sub(r'([^\\])"', '\\1\\"', entry_key)` — scan left to right; at a
non-backslash character immediately followed by `"` emit the character, a
backslash and the quote and resume after the quote; otherwise emit one
character and move on. -/
def escaped_key : Str → Str
  | [] => []
  | [a] => [a]
  | a :: b :: t =>
      if a ≠ bsl ∧ b = '"' then a :: bsl :: '"' :: escaped_key t
      else a :: escaped_key (b :: t)

/-- `write_entry_to_file` (lines 166–176): the text written for one entry —
`/* comment */` on one line, then `"escaped_key" = "escaped_key";`. -/
def write_entry_to_file (entry_comment entry_key : Str) : Str :=
  "/* ".toList ++ entry_comment ++ " */\n".toList ++
  ['"'] ++ escaped_key entry_key ++ "\" = \"".toList ++
  escaped_key entry_key ++ "\";\n".toList

/-- `write_section_header_to_file` (lines 179–186). -/
def write_section_header_to_file (section_name : Str) : Str :=
  "/*** ".toList ++ section_name ++ " ***/\n".toList

/-- Lexicographic comparison of strings by code point — Python's `<=` on
unicode strings, which `sorted` uses on the comment components. -/
def strLe : Str → Str → Bool
  | [], _ => true
  | _ :: _, [] => false
  | a :: s, b :: t => if a < b then true else if a = b then strLe s t else false

/-- Insert into a list sorted by comment (second component), before the first
element whose comment is `≥` the inserted one. -/
def insertByComment (x : Str × Str) : List (Str × Str) → List (Str × Str)
  | [] => [x]
  | y :: l => if strLe x.2 y.2 then x :: y :: l else y :: insertByComment x l

/-- `sorted(d.iteritems(), key=operator.itemgetter(1))` (lines 200 and 215):
a stable ascending sort of the (key, comment) pairs by comment text.
Insertion sort from the left is such a stable sort. -/
def sortedByComment : List (Str × Str) → List (Str × Str)
  | [] => []
  | x :: l => insertByComment x (sortedByComment l)

/-- `write_dict_to_new_file` (lines 206–218): the text written — each
(key, comment) pair in ascending comment order as a rendered entry followed
by a blank line, no section header. -/
def write_dict_to_new_file (localization_key_to_comment : List (Str × Str)) : Str :=
  (sortedByComment localization_key_to_comment).foldl
    (fun acc p => acc ++ write_entry_to_file p.2 p.1 ++ ['\n']) []

/-- `append_dictionary_to_file` (lines 189–203): the text appended — a
section header, then each pair in ascending comment order as a blank line
followed by the rendered entry. -/
def append_dictionary_to_file
    (localization_key_to_comment : List (Str × Str)) (section_name : Str) : Str :=
  write_section_header_to_file section_name ++
  (sortedByComment localization_key_to_comment).foldl
    (fun acc p => acc ++ ['\n'] ++ write_entry_to_file p.2 p.1) []

/-! ## Dictionary construction: last write wins (C3) -/

/-- The claim's description of escaping: walking the original key, insert a
backslash before every `"` whose preceding original character is not a
backslash (a quote at the start has no preceding backslash, so it is
escaped). -/
def specEscapeAux : Option Char → Str → Str
  | _, [] => []
  | prev, a :: t =>
      if a = '"' ∧ prev ≠ some bsl then bsl :: a :: specEscapeAux (some a) t
      else a :: specEscapeAux (some a) t

/-- The claim's escaping function, started with no preceding character. -/
def specEscape (s : Str) : Str := specEscapeAux none s

/-- `""` as a two-character subsequence somewhere in the string. -/
def hasQQ : Str → Bool
  | a :: b :: t => (a = '"' && b = '"') || hasQQ (b :: t)
  | _ => false

/-- The nonempty suffixes of `kk` (each continued by `X`), in shrinking
order: the remaining-input options that a lazy `.*?` walks through while
scanning across `kk`. -/
def dropsAlong (X : Str) : Str → List Str
  | [] => []
  | a :: t => (a :: (t ++ X)) :: dropsAlong X t

/-- `*/` as a two-character subsequence somewhere in the string. -/
def hasStarSlash : Str → Bool
  | a :: b :: t => (a = '*' && b = '/') || hasStarSlash (b :: t)
  | _ => false

/-- An unescaped double quote: one at the very start, or one whose preceding
character is not a backslash. -/
def hasUQAux (prev : Char) : Str → Bool
  | [] => false
  | b :: t => (b = '"' && prev != bsl) || hasUQAux b t

/-- Whether the string contains a double quote not preceded by a backslash
(a quote at position 0 counts). -/
def hasUnescapedQuote : Str → Bool
  | [] => false
  | a :: t => (a = '"') || hasUQAux a t

/-- The text after the record's final `;` starts with a newline whose
follower (if any) is not whitespace, so `\s*\n` consumes exactly the
newline. -/
def nonWsHead (extra : Str) : Prop :=
  extra = [] ∨ ∃ a t, extra = a :: t ∧ pySpace a = false

theorem cmap_append (f : α → List β) (l₁ l₂ : List α) :
    cmap f (l₁ ++ l₂) = cmap f l₁ ++ cmap f l₂ := by
  induction l₁ with
  | nil => rfl
  | cons a l ih => simp [cmap, ih, List.append_assoc]

theorem mem_cmap {f : α → List β} {b : β} {l : List α} :
    b ∈ cmap f l ↔ ∃ a ∈ l, b ∈ f a := by
  induction l with
  | nil => simp [cmap]
  | cons a l ih =>
    simp only [cmap, List.mem_append, ih, List.mem_cons]
    constructor
    · rintro (h | ⟨a', ha', hb⟩)
      · exact ⟨a, Or.inl rfl, h⟩
      · exact ⟨a', Or.inr ha', hb⟩
    · rintro ⟨a', (rfl | ha'), hb⟩
      · exact Or.inl hb
      · exact Or.inr ⟨a', ha', hb⟩

theorem cmap_congr {f g : α → List β} {l : List α}
    (h : ∀ a ∈ l, f a = g a) : cmap f l = cmap g l := by
  induction l with
  | nil => rfl
  | cons a l ih =>
    simp only [cmap, h a (List.mem_cons_self a l)]
    rw [ih fun a' ha' => h a' (List.mem_cons_of_mem a ha')]

theorem psize_pos (p : Pat) : 0 < psize p := by
  cases p <;> simp [psize]

/-- Every result's remaining input is a suffix of the input. -/
theorem matchesF_suffix :
    ∀ (n : Nat) (p : Pat) (s : Str) (c : Caps), ∀ r ∈ matchesF n p s c, ∃ u, s = u ++ r.1 := by
  intro n
  induction n with
  | zero => intro p s c r hr; simp [matchesF] at hr
  | succ n ih =>
    intro p s c r hr
    cases p with
    | lit l =>
      simp only [matchesF] at hr
      by_cases h : l.isPrefixOf s
      · simp [h] at hr
        subst hr
        exact ⟨s.take l.length, (List.take_append_drop _ s).symm⟩
      · simp [h] at hr
    | cls f =>
      simp only [matchesF] at hr
      cases s with
      | nil => simp at hr
      | cons a t =>
        by_cases h : f a
        · simp [h] at hr
          subst hr
          exact ⟨[a], rfl⟩
        · simp [h] at hr
    | seq p q =>
      simp only [matchesF] at hr
      rcases mem_cmap.mp hr with ⟨r₁, hr₁, hr₂⟩
      rcases ih p s c r₁ hr₁ with ⟨u₁, hu₁⟩
      rcases ih q r₁.1 r₁.2 r hr₂ with ⟨u₂, hu₂⟩
      exact ⟨u₁ ++ u₂, by rw [hu₁, hu₂, List.append_assoc]⟩
    | grp i p =>
      simp only [matchesF, List.mem_map] at hr
      rcases hr with ⟨r₁, hr₁, hrr⟩
      rcases ih p s c r₁ hr₁ with ⟨u, hu⟩
      exact ⟨u, by rw [← hrr]; exact hu⟩
    | starG p =>
      simp only [matchesF, List.mem_append] at hr
      rcases hr with hr | hr
      · rcases mem_cmap.mp hr with ⟨r₁, hr₁, hr₂⟩
        by_cases hlen : r₁.1.length < s.length
        · simp only [hlen, if_true] at hr₂
          rcases ih p s c r₁ hr₁ with ⟨u₁, hu₁⟩
          rcases ih (.starG p) r₁.1 r₁.2 r hr₂ with ⟨u₂, hu₂⟩
          exact ⟨u₁ ++ u₂, by rw [hu₁, hu₂, List.append_assoc]⟩
        · simp [hlen] at hr₂
      · simp at hr
        rw [hr]
        exact ⟨[], rfl⟩
    | starL p =>
      simp only [matchesF, List.mem_cons] at hr
      rcases hr with hr | hr
      · rw [hr]
        exact ⟨[], rfl⟩
      · rcases mem_cmap.mp hr with ⟨r₁, hr₁, hr₂⟩
        by_cases hlen : r₁.1.length < s.length
        · simp only [hlen, if_true] at hr₂
          rcases ih p s c r₁ hr₁ with ⟨u₁, hu₁⟩
          rcases ih (.starL p) r₁.1 r₁.2 r hr₂ with ⟨u₂, hu₂⟩
          exact ⟨u₁ ++ u₂, by rw [hu₁, hu₂, List.append_assoc]⟩
        · simp [hlen] at hr₂

theorem matchesF_length_le (n : Nat) (p : Pat) (s : Str) (c : Caps) :
    ∀ r ∈ matchesF n p s c, r.1.length ≤ s.length := by
  intro r hr
  rcases matchesF_suffix n p s c r hr with ⟨u, hu⟩
  rw [hu]
  simp

theorem fuelFor_pos (p : Pat) (s : Str) : 0 < fuelFor p s :=
  Nat.mul_pos (psize_pos p) (Nat.succ_pos _)

theorem fuelFor_seq_left (p q : Pat) (s : Str) : fuelFor p s < fuelFor (.seq p q) s := by
  unfold fuelFor
  have h : psize p < psize (.seq p q) := by simp [psize]; omega
  exact Nat.mul_lt_mul_of_lt_of_le h (Nat.le_refl _) (Nat.succ_pos _)

theorem fuelFor_seq_right (p q : Pat) {s t : Str} (h : t.length ≤ s.length) :
    fuelFor q t < fuelFor (.seq p q) s := by
  unfold fuelFor
  calc psize q * (t.length + 1) ≤ psize q * (s.length + 1) :=
        Nat.mul_le_mul_left _ (by omega)
    _ < psize (.seq p q) * (s.length + 1) :=
        Nat.mul_lt_mul_of_lt_of_le (by simp [psize]; omega) (Nat.le_refl _) (Nat.succ_pos _)

theorem fuelFor_grp (i : Nat) (p : Pat) (s : Str) : fuelFor p s < fuelFor (.grp i p) s := by
  unfold fuelFor
  exact Nat.mul_lt_mul_of_lt_of_le (by simp [psize]) (Nat.le_refl _) (Nat.succ_pos _)

theorem fuelFor_starG_body (p : Pat) (s : Str) : fuelFor p s < fuelFor (.starG p) s := by
  unfold fuelFor
  exact Nat.mul_lt_mul_of_lt_of_le (by simp [psize]) (Nat.le_refl _) (Nat.succ_pos _)

theorem fuelFor_starL_body (p : Pat) (s : Str) : fuelFor p s < fuelFor (.starL p) s := by
  unfold fuelFor
  exact Nat.mul_lt_mul_of_lt_of_le (by simp [psize]) (Nat.le_refl _) (Nat.succ_pos _)

theorem fuelFor_starG_rec (p : Pat) {s t : Str} (h : t.length < s.length) :
    fuelFor (.starG p) t < fuelFor (.starG p) s := by
  unfold fuelFor
  exact Nat.mul_lt_mul_of_le_of_lt (Nat.le_refl _) (by omega) (psize_pos _)

theorem fuelFor_starL_rec (p : Pat) {s t : Str} (h : t.length < s.length) :
    fuelFor (.starL p) t < fuelFor (.starL p) s := by
  unfold fuelFor
  exact Nat.mul_lt_mul_of_le_of_lt (Nat.le_refl _) (by omega) (psize_pos _)

/-- The matcher's result does not depend on the fuel, once the fuel exceeds
`fuelFor p s`. -/
theorem matchesF_stable :
    ∀ (N : Nat) (p : Pat) (s : Str) (c : Caps) (m₁ m₂ : Nat),
      fuelFor p s ≤ N → fuelFor p s < m₁ → fuelFor p s < m₂ →
      matchesF m₁ p s c = matchesF m₂ p s c := by
  intro N
  induction N with
  | zero =>
    intro p s c m₁ m₂ hN _ _
    exact absurd (Nat.lt_of_lt_of_le (fuelFor_pos p s) hN) (by omega)
  | succ N ih =>
    intro p s c m₁ m₂ hN h₁ h₂
    obtain ⟨a, rfl⟩ : ∃ a, m₁ = a + 1 :=
      ⟨m₁ - 1, by omega⟩
    obtain ⟨b, rfl⟩ : ∃ b, m₂ = b + 1 :=
      ⟨m₂ - 1, by omega⟩
    cases p with
    | lit l => simp [matchesF]
    | cls f => simp [matchesF]
    | seq p q =>
      simp only [matchesF]
      have hps : fuelFor p s ≤ N := by
        have := fuelFor_seq_left p q s; omega
      have hinner : matchesF a p s c = matchesF b p s c := by
        apply ih p s c a b hps
        · have := fuelFor_seq_left p q s; omega
        · have := fuelFor_seq_left p q s; omega
      rw [hinner]
      apply cmap_congr
      intro r hr
      have hle : r.1.length ≤ s.length := matchesF_length_le b p s c r hr
      have hq : fuelFor q r.1 < fuelFor (.seq p q) s := fuelFor_seq_right p q hle
      exact ih q r.1 r.2 a b (by omega) (by omega) (by omega)
    | grp i p =>
      simp only [matchesF]
      have := fuelFor_grp i p s
      rw [ih p s c a b (by omega) (by omega) (by omega)]
    | starG p =>
      simp only [matchesF]
      have hbody := fuelFor_starG_body p s
      have hinner : matchesF a p s c = matchesF b p s c :=
        ih p s c a b (by omega) (by omega) (by omega)
      rw [hinner]
      congr 1
      apply cmap_congr
      intro r hr
      by_cases hlen : r.1.length < s.length
      · simp only [hlen, if_true]
        have hrec := fuelFor_starG_rec p (s := s) (t := r.1) hlen
        exact ih (.starG p) r.1 r.2 a b (by omega) (by omega) (by omega)
      · simp [hlen]
    | starL p =>
      simp only [matchesF]
      have hbody := fuelFor_starL_body p s
      have hinner : matchesF a p s c = matchesF b p s c :=
        ih p s c a b (by omega) (by omega) (by omega)
      rw [hinner]
      congr 1
      apply cmap_congr
      intro r hr
      by_cases hlen : r.1.length < s.length
      · simp only [hlen, if_true]
        have hrec := fuelFor_starL_rec p (s := s) (t := r.1) hlen
        exact ih (.starL p) r.1 r.2 a b (by omega) (by omega) (by omega)
      · simp [hlen]

theorem matchesF_eq_pmatches {n : Nat} {p : Pat} {s : Str} (c : Caps)
    (h : fuelFor p s < n) : matchesF n p s c = pmatches p s c :=
  matchesF_stable (fuelFor p s) p s c n (fuelFor p s + 1) (Nat.le_refl _) h (Nat.lt_succ_self _)

theorem pmatches_lit (l : Str) (s : Str) (c : Caps) :
    pmatches (.lit l) s c = if l.isPrefixOf s then [(s.drop l.length, c)] else [] := by
  simp [pmatches, matchesF]

theorem pmatches_cls_nil (f : Char → Bool) (c : Caps) : pmatches (.cls f) [] c = [] := by
  simp [pmatches, matchesF]

theorem pmatches_cls_cons (f : Char → Bool) (a : Char) (t : Str) (c : Caps) :
    pmatches (.cls f) (a :: t) c = if f a then [(t, c)] else [] := by
  simp [pmatches, matchesF]

theorem pmatches_seq (p q : Pat) (s : Str) (c : Caps) :
    pmatches (.seq p q) s c = cmap (fun r => pmatches q r.1 r.2) (pmatches p s c) := by
  unfold pmatches
  conv_lhs => rw [show fuelFor (.seq p q) s + 1 = (fuelFor (.seq p q) s) + 1 from rfl]
  simp only [matchesF]
  rw [matchesF_eq_pmatches c (fuelFor_seq_left p q s)]
  apply cmap_congr
  intro r hr
  have hle : r.1.length ≤ s.length := by
    have := matchesF_length_le (fuelFor p s + 1) p s c r hr
    exact this
  exact matchesF_eq_pmatches r.2 (fuelFor_seq_right p q hle)

theorem pmatches_grp (i : Nat) (p : Pat) (s : Str) (c : Caps) :
    pmatches (.grp i p) s c =
      (pmatches p s c).map (fun r => (r.1, (i, s.take (s.length - r.1.length)) :: r.2)) := by
  unfold pmatches
  simp only [matchesF]
  rw [matchesF_eq_pmatches c (fuelFor_grp i p s)]
  rfl

theorem pmatches_starG (p : Pat) (s : Str) (c : Caps) :
    pmatches (.starG p) s c =
      cmap (fun r => if r.1.length < s.length then pmatches (.starG p) r.1 r.2 else [])
        (pmatches p s c) ++ [(s, c)] := by
  unfold pmatches
  simp only [matchesF]
  rw [matchesF_eq_pmatches c (fuelFor_starG_body p s)]
  congr 1
  apply cmap_congr
  intro r hr
  by_cases hlen : r.1.length < s.length
  · simp only [hlen, if_true]
    exact matchesF_eq_pmatches r.2 (fuelFor_starG_rec p hlen)
  · simp [hlen]

theorem pmatches_starL (p : Pat) (s : Str) (c : Caps) :
    pmatches (.starL p) s c =
      (s, c) ::
      cmap (fun r => if r.1.length < s.length then pmatches (.starL p) r.1 r.2 else [])
        (pmatches p s c) := by
  unfold pmatches
  simp only [matchesF]
  rw [matchesF_eq_pmatches c (fuelFor_starL_body p s)]
  congr 1
  apply cmap_congr
  intro r hr
  by_cases hlen : r.1.length < s.length
  · simp only [hlen, if_true]
    exact matchesF_eq_pmatches r.2 (fuelFor_starL_rec p hlen)
  · simp [hlen]

/-- Every result's remaining input is a suffix of the input (fuel-free form). -/
theorem pmatches_suffix (p : Pat) (s : Str) (c : Caps) :
    ∀ r ∈ pmatches p s c, ∃ u, s = u ++ r.1 :=
  matchesF_suffix _ p s c

theorem pmatches_length_le (p : Pat) (s : Str) (c : Caps) :
    ∀ r ∈ pmatches p s c, r.1.length ≤ s.length :=
  matchesF_length_le _ p s c

theorem cmap_map (f : β → List γ) (g : α → β) (l : List α) :
    cmap f (l.map g) = cmap (fun a => f (g a)) l := by
  induction l with
  | nil => rfl
  | cons a l ih => simp [cmap, ih]

theorem map_cmap (h : β → γ) (f : α → List β) (l : List α) :
    (cmap f l).map h = cmap (fun a => (f a).map h) l := by
  induction l with
  | nil => rfl
  | cons a l ih => simp [cmap, ih]

/-- Captures thread through matching by appending: matching with initial
captures `c` yields exactly the matches with empty initial captures, with `c`
appended at the tail of each capture list. -/
theorem matchesF_caps (n : Nat) (p : Pat) (s : Str) (c : Caps) :
    matchesF n p s c = (matchesF n p s []).map (fun r => (r.1, r.2 ++ c)) := by
  induction n generalizing p s c with
  | zero => simp [matchesF]
  | succ n ih =>
    cases p with
    | lit l =>
      simp only [matchesF]
      by_cases h : l.isPrefixOf s <;> simp [h]
    | cls f =>
      cases s with
      | nil => simp [matchesF]
      | cons a t =>
        simp only [matchesF]
        by_cases h : f a <;> simp [h]
    | seq p q =>
      simp only [matchesF]
      rw [ih p s c, cmap_map, map_cmap]
      apply cmap_congr
      intro r hr
      rw [ih q r.1 (r.2 ++ c), ih q r.1 r.2, List.map_map]
      apply List.map_congr_left
      intro x hx
      simp [List.append_assoc]
    | grp i p =>
      simp only [matchesF]
      rw [ih p s c, List.map_map, List.map_map]
      apply List.map_congr_left
      intro x hx
      simp
    | starG p =>
      simp only [matchesF]
      rw [ih p s c, cmap_map, List.map_append, map_cmap]
      congr 1
      apply cmap_congr
      intro r hr
      by_cases hlen : r.1.length < s.length
      · simp only [hlen, if_true]
        rw [ih (.starG p) r.1 (r.2 ++ c), ih (.starG p) r.1 r.2, List.map_map]
        apply List.map_congr_left
        intro x hx
        simp [List.append_assoc]
      · simp [hlen]
    | starL p =>
      simp only [matchesF]
      rw [ih p s c, cmap_map, List.map_cons, map_cmap]
      congr 1
      apply cmap_congr
      intro r hr
      by_cases hlen : r.1.length < s.length
      · simp only [hlen, if_true]
        rw [ih (.starL p) r.1 (r.2 ++ c), ih (.starL p) r.1 r.2, List.map_map]
        apply List.map_congr_left
        intro x hx
        simp [List.append_assoc]
      · simp [hlen]

theorem pmatches_caps (p : Pat) (s : Str) (c : Caps) :
    pmatches p s c = (pmatches p s []).map (fun r => (r.1, r.2 ++ c)) :=
  matchesF_caps _ p s c

theorem pmatches_caps_nil_iff (p : Pat) (s : Str) (c : Caps) :
    pmatches p s c = [] ↔ pmatches p s [] = [] := by
  rw [pmatches_caps p s c]
  simp

theorem pmatches_starG_cls (f : Char → Bool) (s : Str) (c : Caps) :
    pmatches (.starG (.cls f)) s c = (runG f s).map (fun t => (t, c)) := by
  induction s with
  | nil =>
    rw [pmatches_starG, pmatches_cls_nil]
    simp [runG, cmap]
  | cons a t ih =>
    rw [pmatches_starG, pmatches_cls_cons]
    by_cases h : f a
    · simp only [h, if_true, runG]
      simp only [cmap, List.append_nil]
      rw [if_pos (by simp)]
      rw [ih]
      simp
    · simp [h, runG, cmap]

theorem pmatches_starL_cls (f : Char → Bool) (s : Str) (c : Caps) :
    pmatches (.starL (.cls f)) s c = (runL f s).map (fun t => (t, c)) := by
  induction s with
  | nil =>
    rw [pmatches_starL, pmatches_cls_nil]
    simp [runL, cmap]
  | cons a t ih =>
    rw [pmatches_starL, pmatches_cls_cons]
    by_cases h : f a
    · simp only [h, if_true, runL]
      simp only [cmap, List.append_nil]
      rw [if_pos (by simp)]
      rw [ih]
      simp
    · simp [h, runL, cmap]

theorem mem_runG {f : Char → Bool} {s t : Str} :
    t ∈ runG f s ↔ ∃ u, s = u ++ t ∧ ∀ x ∈ u, f x = true := by
  induction s with
  | nil =>
    simp only [runG, List.mem_singleton]
    constructor
    · rintro rfl; exact ⟨[], rfl, by simp⟩
    · rintro ⟨u, hu, _⟩
      rcases List.append_eq_nil.mp hu.symm with ⟨rfl, rfl⟩
      rfl
  | cons a s ih =>
    constructor
    · intro ht
      by_cases h : f a
      · rw [runG, if_pos h] at ht
        rcases List.mem_append.mp ht with ht | ht
        · rcases ih.mp ht with ⟨u, hu, hall⟩
          refine ⟨a :: u, by rw [hu]; rfl, ?_⟩
          intro x hx
          rcases List.mem_cons.mp hx with rfl | hx
          · exact h
          · exact hall x hx
        · rcases List.mem_singleton.mp ht with rfl
          exact ⟨[], rfl, by simp⟩
      · rw [runG, if_neg h] at ht
        rcases List.mem_singleton.mp ht with rfl
        exact ⟨[], rfl, by simp⟩
    · rintro ⟨u, hu, hall⟩
      cases u with
      | nil =>
        simp only [List.nil_append] at hu
        subst hu
        by_cases h : f a
        · rw [runG, if_pos h]
          exact List.mem_append.mpr (Or.inr (List.mem_singleton.mpr rfl))
        · rw [runG, if_neg h]
          exact List.mem_singleton.mpr rfl
      | cons b u =>
        rw [List.cons_append] at hu
        injection hu with hb hs
        subst hb
        have hfa : f a = true := hall a (List.mem_cons_self _ _)
        rw [runG, if_pos hfa]
        exact List.mem_append.mpr
          (Or.inl (ih.mpr ⟨u, hs, fun x hx => hall x (List.mem_cons_of_mem _ hx)⟩))

theorem count_le_of_suffix {x : Char} {s t : Str} (h : ∃ u, s = u ++ t) :
    t.count x ≤ s.count x := by
  rcases h with ⟨u, rfl⟩
  simp [List.count_append]

/-- Any successful match consumes at least `minC x p` occurrences of `x`. -/
theorem matchesF_count (x : Char) :
    ∀ (n : Nat) (p : Pat) (s : Str) (c : Caps), ∀ r ∈ matchesF n p s c,
      minC x p + r.1.count x ≤ s.count x := by
  intro n
  induction n with
  | zero => intro p s c r hr; simp [matchesF] at hr
  | succ n ih =>
    intro p s c r hr
    cases p with
    | lit l =>
      simp only [matchesF] at hr
      by_cases h : l.isPrefixOf s
      · simp only [h, if_true, List.mem_singleton] at hr
        subst hr
        have hs : s = l ++ s.drop l.length := by
          conv_lhs => rw [← List.prefix_iff_eq_append.mp (List.isPrefixOf_iff_prefix.mp h)]
        rw [hs]
        simp [minC, List.count_append]
      · simp [h] at hr
    | cls f =>
      simp only [matchesF] at hr
      cases s with
      | nil => simp at hr
      | cons a t =>
        by_cases h : f a
        · simp only [h, if_true, List.mem_singleton] at hr
          subst hr
          simp only [minC, Nat.zero_add, List.count_cons]
          omega
        · simp [h] at hr
    | seq p q =>
      simp only [matchesF] at hr
      rcases mem_cmap.mp hr with ⟨r₁, hr₁, hr₂⟩
      have h₁ := ih p s c r₁ hr₁
      have h₂ := ih q r₁.1 r₁.2 r hr₂
      simp only [minC]
      omega
    | grp i p =>
      simp only [matchesF, List.mem_map] at hr
      rcases hr with ⟨r₁, hr₁, hrr⟩
      have h₁ := ih p s c r₁ hr₁
      have : r.1 = r₁.1 := by rw [← hrr]
      rw [this]
      simpa [minC] using h₁
    | starG p =>
      simp only [matchesF, List.mem_append] at hr
      rcases hr with hr | hr
      · rcases mem_cmap.mp hr with ⟨r₁, hr₁, hr₂⟩
        by_cases hlen : r₁.1.length < s.length
        · simp only [hlen, if_true] at hr₂
          have h₁ := ih p s c r₁ hr₁
          have h₂ := ih (.starG p) r₁.1 r₁.2 r hr₂
          simp only [minC] at h₂ ⊢
          omega
        · simp [hlen] at hr₂
      · simp only [List.mem_singleton] at hr
        subst hr
        simp [minC]
    | starL p =>
      simp only [matchesF, List.mem_cons] at hr
      rcases hr with hr | hr
      · subst hr; simp [minC]
      · rcases mem_cmap.mp hr with ⟨r₁, hr₁, hr₂⟩
        by_cases hlen : r₁.1.length < s.length
        · simp only [hlen, if_true] at hr₂
          have h₁ := ih p s c r₁ hr₁
          have h₂ := ih (.starL p) r₁.1 r₁.2 r hr₂
          simp only [minC] at h₂ ⊢
          omega
        · simp [hlen] at hr₂

/-- If the input has fewer occurrences of `x` than the pattern must consume,
there is no match at all. -/
theorem pmatches_eq_nil_of_count {x : Char} {p : Pat} {s : Str} (c : Caps)
    (h : s.count x < minC x p) : pmatches p s c = [] := by
  rcases hne : pmatches p s c with _ | ⟨r, rest⟩
  · rfl
  · exfalso
    have hr : r ∈ pmatches p s c := by rw [hne]; exact List.mem_cons_self _ _
    have := matchesF_count x _ p s c r hr
    omega

theorem findAllF_stable :
    ∀ (N : Nat) (p : Pat) (s : Str) (m₁ m₂ : Nat),
      s.length ≤ N → s.length < m₁ → s.length < m₂ →
      findAllF p m₁ s = findAllF p m₂ s := by
  intro N
  induction N with
  | zero =>
    intro p s m₁ m₂ hN h₁ h₂
    obtain rfl : s = [] := List.length_eq_zero.mp (Nat.le_zero.mp hN)
    obtain ⟨a, rfl⟩ : ∃ a, m₁ = a + 1 := ⟨m₁ - 1, by omega⟩
    obtain ⟨b, rfl⟩ : ∃ b, m₂ = b + 1 := ⟨m₂ - 1, by omega⟩
    simp only [findAllF]
  | succ N ih =>
    intro p s m₁ m₂ hN h₁ h₂
    obtain ⟨a, rfl⟩ : ∃ a, m₁ = a + 1 := ⟨m₁ - 1, by omega⟩
    obtain ⟨b, rfl⟩ : ∃ b, m₂ = b + 1 := ⟨m₂ - 1, by omega⟩
    simp only [findAllF]
    cases hh : (pmatches p s []).head? with
    | none =>
      cases s with
      | nil => rfl
      | cons x t =>
        simp only [List.length_cons] at h₁ h₂ hN
        exact ih p t a b (by omega) (by omega) (by omega)
    | some r =>
      cases s with
      | nil => rfl
      | cons x t =>
        have hmem : r ∈ pmatches p (x :: t) [] := List.mem_of_mem_head? hh
        have hrlen : r.1.length ≤ (x :: t).length := pmatches_length_le _ _ _ r hmem
        simp only [List.length_cons] at h₁ h₂ hN hrlen
        by_cases hlen : r.1.length < (x :: t).length
        · simp only [hlen, if_true]
          simp only [List.length_cons] at hlen
          rw [ih p r.1 a b (by omega) (by omega) (by omega)]
        · simp only [hlen, if_false]
          rw [ih p t a b (by omega) (by omega) (by omega)]

theorem findAllF_eq_findAll {p : Pat} {s : Str} {n : Nat} (h : s.length < n) :
    findAllF p n s = findAll p s :=
  findAllF_stable s.length p s n (s.length + 1) (Nat.le_refl _) h (Nat.lt_succ_self _)

theorem findAll_nil_of_none {p : Pat} (h : (pmatches p [] []).head? = none) :
    findAll p [] = [] := by
  unfold findAll
  simp only [findAllF, h]

theorem findAll_nil_of_some {p : Pat} {r : Str × Caps}
    (h : (pmatches p [] []).head? = some r) :
    findAll p [] = [r.2] := by
  unfold findAll
  simp only [findAllF, h]

theorem findAllF_succ (p : Pat) (n : Nat) (s : Str) :
    findAllF p (n + 1) s =
      match (pmatches p s []).head? with
      | none =>
        match s with
        | [] => []
        | _ :: t => findAllF p n t
      | some r =>
        r.2 ::
          match s with
          | [] => []
          | _ :: t => if r.1.length < s.length then findAllF p n r.1 else findAllF p n t := rfl

theorem findAll_cons_none {p : Pat} {x : Char} {t : Str}
    (h : (pmatches p (x :: t) []).head? = none) :
    findAll p (x :: t) = findAll p t := by
  unfold findAll
  rw [show (x :: t).length + 1 = (t.length + 1) + 1 from rfl, findAllF_succ, h]

theorem findAll_progress {p : Pat} {s : Str} {r : Str × Caps}
    (h : (pmatches p s []).head? = some r) (hlen : r.1.length < s.length) :
    findAll p s = r.2 :: findAll p r.1 := by
  cases s with
  | nil => simp at hlen
  | cons x t =>
    unfold findAll
    rw [show (x :: t).length + 1 = (t.length + 1) + 1 from rfl, findAllF_succ, h]
    have hlen' : r.1.length < t.length + 1 := by simpa using hlen
    simp only [hlen, if_true]
    rw [findAllF_eq_findAll hlen']
    rfl

theorem findAll_cons_noprogress {p : Pat} {x : Char} {t : Str} {r : Str × Caps}
    (h : (pmatches p (x :: t) []).head? = some r)
    (hlen : ¬ r.1.length < (x :: t).length) :
    findAll p (x :: t) = r.2 :: findAll p t := by
  unfold findAll
  rw [show (x :: t).length + 1 = (t.length + 1) + 1 from rfl, findAllF_succ, h]
  simp only [hlen, if_false]

/-- If the pattern matches nowhere — at no suffix of the input — the scan
finds nothing. -/
theorem findAll_eq_nil {p : Pat} {s : Str}
    (h : ∀ s', (∃ u, s = u ++ s') → pmatches p s' [] = []) :
    findAll p s = [] := by
  induction s with
  | nil => exact findAll_nil_of_none (by rw [h [] ⟨[], rfl⟩]; rfl)
  | cons x t ih =>
    rw [findAll_cons_none (by rw [h (x :: t) ⟨[], rfl⟩]; rfl)]
    exact ih fun s' ⟨u, hu⟩ => h s' ⟨x :: u, by rw [hu]; rfl⟩

/-! ## The two regular expressions of `localization_utils.py` -/

theorem pyDictGet_set [DecidableEq α] (d : List (α × β)) (k : α) (v : β) (k' : α) :
    pyDictGet (pyDictSet d k v) k' = if k = k' then some v else pyDictGet d k' := by
  induction d with
  | nil => simp [pyDictSet, pyDictGet]
  | cons p d ih =>
    by_cases h : p.1 = k
    · rw [show p = (p.1, p.2) from rfl, pyDictSet]
      simp only [h, if_true]
      by_cases h' : k = k'
      · simp [pyDictGet, h']
      · simp [pyDictGet, h', h]
    · rw [show p = (p.1, p.2) from rfl, pyDictSet]
      simp only [h, if_false]
      by_cases h' : p.1 = k'
      · have : ¬ k = k' := fun hk => h (hk ▸ h')
        simp [pyDictGet, h', this]
      · simp [pyDictGet, h', ih]

theorem generate_localization_dictionary_lookup_aux
    (sel : LocalizationEntry → Str) (v : Str) :
    ∀ (tuples : List (Str × List Str × Str × Str)) (d : List (Str × LocalizationEntry)),
      pyDictGet
        (tuples.foldl (fun d t => pyDictSet d (sel (toEntry t)) (toEntry t)) d) v =
      match tuples.reverse.find? (fun t => decide (sel (toEntry t) = v)) with
      | some t => some (toEntry t)
      | none => pyDictGet d v := by
  intro tuples
  induction tuples with
  | nil => intro d; simp
  | cons t ts ih =>
    intro d
    rw [List.foldl_cons, ih, List.reverse_cons, List.find?_append]
    rcases hfind : ts.reverse.find? (fun t => decide (sel (toEntry t) = v)) with _ | t'
    · simp only [hfind, Option.none_orElse]
      by_cases hv : sel (toEntry t) = v
      · simp [hv, pyDictGet_set]
      · simp [hv, pyDictGet_set, List.find?]
    · simp [hfind, Option.some_orElse]

/-- Looking up an attribute value in the built dictionary yields the entry of
the last parsed record whose selected attribute equals it. -/
theorem generate_localization_dictionary_lookup
    (tuples : List (Str × List Str × Str × Str))
    (sel : LocalizationEntry → Str) (v : Str) :
    pyDictGet (generate_localization_dictionary tuples sel) v =
      (tuples.reverse.find? (fun t => decide (sel (toEntry t) = v))).map toEntry := by
  unfold generate_localization_dictionary
  rw [generate_localization_dictionary_lookup_aux]
  rcases hfind : tuples.reverse.find? (fun t => decide (sel (toEntry t) = v)) with _ | t'
  · simp [pyDictGet]
  · simp

/-- C3: building a localization dictionary from a sequence of parsed records
containing two records whose selected attribute (key or value, per `sel`)
coincides maps that attribute value to the entry constructed from the record
that occurs later in the sequence; construction is total — no error or
warning is raised on the duplicate. -/
theorem claim_C3_last_write_wins
    (pre mid post : List (Str × List Str × Str × Str))
    (r₁ r₂ : Str × List Str × Str × Str)
    (sel : LocalizationEntry → Str)
    (hdup : sel (toEntry r₁) = sel (toEntry r₂))
    (hpost : ∀ t ∈ post, sel (toEntry t) ≠ sel (toEntry r₂)) :
    pyDictGet
      (generate_localization_dictionary (pre ++ r₁ :: mid ++ r₂ :: post) sel)
      (sel (toEntry r₂)) = some (toEntry r₂) := by
  rw [generate_localization_dictionary_lookup]
  have hrev : (pre ++ r₁ :: mid ++ r₂ :: post).reverse =
      post.reverse ++ r₂ :: (mid.reverse ++ r₁ :: pre.reverse) := by
    simp
  rw [hrev, List.find?_append]
  have hnone : post.reverse.find? (fun t => decide (sel (toEntry t) = sel (toEntry r₂))) = none := by
    rw [List.find?_eq_none]
    intro t ht
    simp only [decide_eq_true_eq]
    exact hpost t (List.mem_reverse.mp ht)
  rw [hnone]
  simp [List.find?]

/-- Witness for C3 at a concrete input: two records with the same key
`K` and different comments; the built dictionary holds the later one. -/
theorem claim_C3_last_write_wins_witness :
    (∀ t ∈ ([] : List (Str × List Str × Str × Str)),
        (fun e => e.key) (toEntry t) ≠ (fun e => e.key) (toEntry ([], ["c2".toList], "K".toList, "V2".toList))) ∧
    pyDictGet
      (generate_localization_dictionary
        ([] ++ ([], ["c1".toList], "K".toList, "V1".toList) :: [] ++
          ([], ["c2".toList], "K".toList, "V2".toList) :: []) (fun e => e.key))
      ((fun e => e.key) (toEntry ([], ["c2".toList], "K".toList, "V2".toList))) =
      some (toEntry ([], ["c2".toList], "K".toList, "V2".toList)) := by
  refine ⟨by simp, ?_⟩
  exact claim_C3_last_write_wins [] [] []
    ([], ["c1".toList], "K".toList, "V1".toList)
    ([], ["c2".toList], "K".toList, "V2".toList)
    (fun e => e.key) (by decide) (by simp)

/-! ## The directory walk isolates per-file failures (C4) -/

theorem walkStep_pass
    (ext : List (Str × Str) → Str → Except Str (List (Str × Str)))
    (filt : Str → Bool) {f : Str} (acc : List (Str × Str) × List Str)
    (hf : filt f = false) : walkStep ext filt acc f = acc := by
  unfold walkStep
  rw [hf]
  simp

theorem walkStep_ok
    (ext : List (Str × Str) → Str → Except Str (List (Str × Str)))
    (filt : Str → Bool) {f : Str} {d d' : List (Str × Str)} (l : List Str)
    (hf : filt f = true) (hext : ext d f = Except.ok d') :
    walkStep ext filt (d, l) f = (d', l) := by
  unfold walkStep
  rw [hf, if_pos rfl]
  simp only [hext]

theorem walkStep_error
    (ext : List (Str × Str) → Str → Except Str (List (Str × Str)))
    (filt : Str → Bool) {f : Str} {d : List (Str × Str)} {e : Str} (l : List Str)
    (hf : filt f = true) (hext : ext d f = Except.error e) :
    walkStep ext filt (d, l) f = (d, l ++ ["Error in file ".toList ++ f, e]) := by
  unfold walkStep
  rw [hf, if_pos rfl]
  simp only [hext]

theorem walk_fst_log_independent
    (ext : List (Str × Str) → Str → Except Str (List (Str × Str)))
    (filt : Str → Bool) :
    ∀ (files : List Str) (d : List (Str × Str)) (l l' : List Str),
      (files.foldl (walkStep ext filt) (d, l)).1 =
      (files.foldl (walkStep ext filt) (d, l')).1 := by
  intro files
  induction files with
  | nil => intro d l l'; rfl
  | cons f fs ih =>
    intro d l l'
    rw [List.foldl_cons, List.foldl_cons]
    by_cases hf : filt f
    · rcases hext : ext d f with e | d'
      · rw [walkStep_error ext filt l hf hext, walkStep_error ext filt l' hf hext]
        exact ih d _ _
      · rw [walkStep_ok ext filt l hf hext, walkStep_ok ext filt l' hf hext]
        exact ih d' l l'
    · rw [walkStep_pass ext filt _ (Bool.not_eq_true _ ▸ hf),
        walkStep_pass ext filt _ (Bool.not_eq_true _ ▸ hf)]
      exact ih d l l'

theorem walk_log_monotone
    (ext : List (Str × Str) → Str → Except Str (List (Str × Str)))
    (filt : Str → Bool) :
    ∀ (files : List Str) (d : List (Str × Str)) (l : List Str),
      ∃ l', (files.foldl (walkStep ext filt) (d, l)).2 = l ++ l' := by
  intro files
  induction files with
  | nil => intro d l; exact ⟨[], by simp⟩
  | cons f fs ih =>
    intro d l
    rw [List.foldl_cons]
    by_cases hf : filt f
    · rcases hext : ext d f with e | d'
      · rw [walkStep_error ext filt l hf hext]
        rcases ih d (l ++ ["Error in file ".toList ++ f, e]) with ⟨l', hl'⟩
        exact ⟨["Error in file ".toList ++ f, e] ++ l', by rw [hl']; simp⟩
      · rw [walkStep_ok ext filt l hf hext]
        exact ih d' l
    · rw [walkStep_pass ext filt _ (Bool.not_eq_true _ ▸ hf)]
      exact ih d l

/-- C4: if the extractor fails on one file of the walk, the failure is
caught: the accumulated dictionary is exactly the one obtained by walking the
other files — every pair merged from files processed before the failing file
remains and files processed after it still contribute — the walk never
aborts, and the failing file's name is reported in the output log. -/
theorem claim_C4_partial_failure_isolation
    (ext : List (Str × Str) → Str → Except Str (List (Str × Str)))
    (filt : Str → Bool) (files_before files_after : List Str) (bad : Str)
    (hfail : ∀ d, ∃ e, ext d bad = Except.error e) :
    (extract_string_pairs_in_directory ext filt (files_before ++ bad :: files_after)).1 =
      (extract_string_pairs_in_directory ext filt (files_before ++ files_after)).1 ∧
    (filt bad = true →
      "Error in file ".toList ++ bad ∈
        (extract_string_pairs_in_directory ext filt (files_before ++ bad :: files_after)).2) := by
  unfold extract_string_pairs_in_directory
  rw [List.foldl_append, List.foldl_append, List.foldl_cons]
  rcases hacc : files_before.foldl (walkStep ext filt) ([], []) with ⟨d, l⟩
  constructor
  · by_cases hf : filt bad
    · rcases hfail d with ⟨e, he⟩
      rw [walkStep_error ext filt l hf he]
      exact walk_fst_log_independent ext filt files_after d _ l
    · rw [walkStep_pass ext filt _ (Bool.not_eq_true _ ▸ hf)]
  · intro hf
    rcases hfail d with ⟨e, he⟩
    rw [walkStep_error ext filt l hf he]
    rcases walk_log_monotone ext filt files_after d
        (l ++ ["Error in file ".toList ++ bad, e]) with ⟨l', hl'⟩
    rw [hl']
    simp

/-- Witness for C4 at a concrete input: file `a.m` contributes a pair, `b.m`
fails, `c.m` contributes a pair; the result is as if `b.m` were absent, and
the error line names `b.m`. -/
theorem claim_C4_partial_failure_isolation_witness :
    (∀ d, ∃ e,
        (fun (d : List (Str × Str)) (f : Str) =>
            if f = "b.m".toList then (Except.error "boom".toList : Except Str (List (Str × Str)))
            else Except.ok (pyDictSet d f f)) d "b.m".toList = Except.error e) ∧
    (extract_string_pairs_in_directory
        (fun d f => if f = "b.m".toList then Except.error "boom".toList
                    else Except.ok (pyDictSet d f f))
        (fun _ => true) (["a.m".toList] ++ "b.m".toList :: ["c.m".toList])).1 =
      (extract_string_pairs_in_directory
        (fun d f => if f = "b.m".toList then Except.error "boom".toList
                    else Except.ok (pyDictSet d f f))
        (fun _ => true) (["a.m".toList] ++ ["c.m".toList])).1 ∧
    "Error in file ".toList ++ "b.m".toList ∈
      (extract_string_pairs_in_directory
        (fun d f => if f = "b.m".toList then Except.error "boom".toList
                    else Except.ok (pyDictSet d f f))
        (fun _ => true) (["a.m".toList] ++ "b.m".toList :: ["c.m".toList])).2 := by
  have h := claim_C4_partial_failure_isolation
    (fun d f => if f = "b.m".toList then Except.error "boom".toList
                else Except.ok (pyDictSet d f f))
    (fun _ => true) ["a.m".toList] ["c.m".toList] "b.m".toList
    (fun d => ⟨"boom".toList, by simp⟩)
  exact ⟨fun d => ⟨"boom".toList, by simp⟩, h.1, h.2 rfl⟩

/-! ## The rendered entry repeats the escaped key on both sides (C6) -/

/-- C6: the rendered entry consists of the comment line `/* comment */` and
an assignment line that uses one and the same string — the escaped key — on
both sides of the ` = `; the comment text appears only in the comment line
and never as the value. -/
theorem claim_C6_key_on_both_sides (entry_comment entry_key : Str) :
    ∃ e, e = escaped_key entry_key ∧
      write_entry_to_file entry_comment entry_key =
        ("/* ".toList ++ entry_comment ++ " */\n".toList) ++
        (['"'] ++ e ++ "\" = \"".toList ++ e ++ "\";\n".toList) := by
  exact ⟨escaped_key entry_key, rfl, by simp [write_entry_to_file]⟩

/-- Witness for C6 at a concrete input. -/
theorem claim_C6_key_on_both_sides_witness :
    ∃ e, e = escaped_key "LOGIN_BTN".toList ∧
      write_entry_to_file "Button label".toList "LOGIN_BTN".toList =
        ("/* ".toList ++ "Button label".toList ++ " */\n".toList) ++
        (['"'] ++ e ++ "\" = \"".toList ++ e ++ "\";\n".toList) :=
  claim_C6_key_on_both_sides "Button label".toList "LOGIN_BTN".toList

/-! ## `write_dict_to_new_file` sorts ascending by comment, stably (C5) -/

theorem strLe_refl : ∀ s : Str, strLe s s = true := by
  intro s
  induction s with
  | nil => rfl
  | cons a s ih => simp [strLe, ih]

theorem strLe_total : ∀ s t : Str, strLe s t = true ∨ strLe t s = true := by
  intro s
  induction s with
  | nil => intro t; left; rfl
  | cons a s ih =>
    intro t
    cases t with
    | nil => right; rfl
    | cons b t =>
      rcases lt_trichotomy a b with h | h | h
      · left; simp [strLe, h]
      · subst h
        rcases ih t with ht | ht
        · left; simp [strLe, ht]
        · right; simp [strLe, ht]
      · right; simp [strLe, h]

theorem strLe_trans : ∀ s t u : Str, strLe s t = true → strLe t u = true →
    strLe s u = true := by
  intro s
  induction s with
  | nil => intro t u _ _; rfl
  | cons a s ih =>
    intro t u h₁ h₂
    cases t with
    | nil => simp [strLe] at h₁
    | cons b t =>
      cases u with
      | nil => simp [strLe] at h₂
      | cons c u =>
        simp only [strLe] at h₁ h₂ ⊢
        rcases lt_trichotomy a b with hab | hab | hab
        · rcases lt_trichotomy b c with hbc | hbc | hbc
          · simp [lt_trans hab hbc]
          · subst hbc; simp [hab]
          · exfalso
            rw [if_neg (asymm hbc), if_neg (ne_of_gt hbc)] at h₂
            simp at h₂
        · subst hab
          rcases lt_trichotomy a c with hac | hac | hac
          · simp [hac]
          · subst hac
            rw [if_neg (lt_irrefl a), if_pos rfl] at h₁ h₂ ⊢
            exact ih t u h₁ h₂
          · exfalso
            rw [if_neg (asymm hac), if_neg (ne_of_gt hac)] at h₂
            simp at h₂
        · exfalso
          rw [if_neg (asymm hab), if_neg (ne_of_gt hab)] at h₁
          simp at h₁

theorem mem_insertByComment (x z : Str × Str) (l : List (Str × Str)) :
    z ∈ insertByComment x l ↔ z = x ∨ z ∈ l := by
  induction l with
  | nil => simp [insertByComment]
  | cons y l ih =>
    rw [insertByComment]
    by_cases h : strLe x.2 y.2 = true
    · rw [if_pos h]
      simp
    · rw [if_neg h]
      simp only [List.mem_cons, ih]
      tauto

theorem pairwise_insertByComment (x : Str × Str) (l : List (Str × Str))
    (hl : l.Pairwise (fun p q => strLe p.2 q.2 = true)) :
    (insertByComment x l).Pairwise (fun p q => strLe p.2 q.2 = true) := by
  induction l with
  | nil => simp [insertByComment]
  | cons y l ih =>
    rw [List.pairwise_cons] at hl
    by_cases h : strLe x.2 y.2 = true
    · rw [insertByComment, if_pos h]
      refine List.pairwise_cons.mpr ⟨?_, List.pairwise_cons.mpr hl⟩
      intro z hz
      rcases List.mem_cons.mp hz with rfl | hz
      · exact h
      · exact strLe_trans _ _ _ h (hl.1 z hz)
    · rw [insertByComment, if_neg h]
      have hyx : strLe y.2 x.2 = true := (strLe_total x.2 y.2).resolve_left h
      refine List.pairwise_cons.mpr ⟨?_, ih hl.2⟩
      intro z hz
      rcases (mem_insertByComment x z l).mp hz with rfl | hz
      · exact hyx
      · exact hl.1 z hz

theorem pairwise_sortedByComment (m : List (Str × Str)) :
    (sortedByComment m).Pairwise (fun p q => strLe p.2 q.2 = true) := by
  induction m with
  | nil => simp [sortedByComment]
  | cons x m ih => exact pairwise_insertByComment x _ ih

theorem filter_insertByComment (x : Str × Str) (l : List (Str × Str)) (c : Str) :
    (insertByComment x l).filter (fun p => decide (p.2 = c)) =
      if x.2 = c then x :: l.filter (fun p => decide (p.2 = c))
      else l.filter (fun p => decide (p.2 = c)) := by
  induction l with
  | nil =>
    by_cases hx : x.2 = c <;> simp [insertByComment, hx]
  | cons y l ih =>
    rw [insertByComment]
    by_cases h : strLe x.2 y.2 = true
    · rw [if_pos h]
      by_cases hx : x.2 = c <;> simp [List.filter, hx]
    · rw [if_neg h]
      by_cases hy : y.2 = c
      · by_cases hx : x.2 = c
        · exfalso
          exact h (hx ▸ hy ▸ strLe_refl c)
        · simp [List.filter, hy, hx, ih]
      · simp [List.filter, hy, ih]

/-- Stability of the sort: for every comment text `c`, the subsequence of
pairs whose comment is `c` is unchanged — ties keep their input order. -/
theorem filter_sortedByComment (m : List (Str × Str)) (c : Str) :
    (sortedByComment m).filter (fun p => decide (p.2 = c)) =
      m.filter (fun p => decide (p.2 = c)) := by
  induction m with
  | nil => rfl
  | cons x m ih =>
    rw [sortedByComment, filter_insertByComment]
    by_cases hx : x.2 = c <;> simp [List.filter, hx, ih]

theorem foldl_append_emit (g h : α → List β) :
    ∀ (l : List α) (init : List β),
      l.foldl (fun acc p => acc ++ g p ++ h p) init =
        init ++ cmap (fun p => g p ++ h p) l := by
  intro l
  induction l with
  | nil => intro init; simp [cmap]
  | cons a l ih =>
    intro init
    rw [List.foldl_cons, ih, cmap_cons]
    simp only [List.append_assoc]

/-- C5: `write_dict_to_new_file` emits exactly the rendered entries of the
mapping in the order given by `sortedByComment`, which lists the pairs in
ascending order of comment text, and pairs with equal comment text keep
their relative input order. -/
theorem claim_C5_sorted_stable_output (m : List (Str × Str)) :
    write_dict_to_new_file m =
        cmap (fun p => write_entry_to_file p.2 p.1 ++ ['\n']) (sortedByComment m) ∧
    (sortedByComment m).Pairwise (fun p q => strLe p.2 q.2 = true) ∧
    ∀ c, (sortedByComment m).filter (fun p => decide (p.2 = c)) =
      m.filter (fun p => decide (p.2 = c)) := by
  refine ⟨?_, pairwise_sortedByComment m, fun c => filter_sortedByComment m c⟩
  unfold write_dict_to_new_file
  rw [foldl_append_emit]
  rfl

/-! ## Key escaping (C2)

The claim asserts that every `"` not already preceded by a backslash gets a
backslash inserted, *including* a quote at the start of the key and
consecutive quotes.  `specEscape` renders that description literally; the
code's `re.sub(r'([^\\])"', ...)` needs a preceding character to match, so a
quote at position 0 (and the quote following a just-consumed match) is left
unescaped. -/

/-- C2 counterexample: for the key consisting of a single double quote, the
claim demands an inserted backslash (`specEscape`), but the code's
substitution leaves the key unchanged, since `([^\\])"` requires a character
before the quote. -/
theorem claim_C2_counterexample :
    escaped_key ['"'] = ['"'] ∧ specEscape ['"'] = [bsl, '"'] ∧
      escaped_key ['"'] ≠ specEscape ['"'] := by
  decide

theorem escaped_key_spec_aux :
    ∀ (n : Nat) (k : Str), k.length ≤ n → k.head? ≠ some '"' → hasQQ k = false →
      ∀ p, escaped_key k = specEscapeAux p k := by
  intro n
  induction n with
  | zero =>
    intro k hk _ _ p
    obtain rfl : k = [] := List.length_eq_zero.mp (Nat.le_zero.mp hk)
    rfl
  | succ n ih =>
    intro k hk hhead hqq p
    match k with
    | [] => rfl
    | [a] =>
      have ha : ¬ a = '"' := fun h => hhead (by simp [h])
      simp [escaped_key, specEscapeAux, ha]
    | a :: b :: t =>
      have ha : ¬ a = '"' := fun h => hhead (by simp [h])
      have hqq' : hasQQ (b :: t) = false := by
        have : hasQQ (a :: b :: t) = ((a = '"' && b = '"') || hasQQ (b :: t)) := rfl
        rw [this] at hqq
        exact (Bool.or_eq_false_iff.mp hqq).2
      by_cases hcond : a ≠ bsl ∧ b = '"'
      · rw [escaped_key, if_pos hcond]
        rw [specEscapeAux, if_neg (by simp [ha])]
        rw [specEscapeAux,
          if_pos ⟨hcond.2, fun h => hcond.1 (Option.some.inj h)⟩]
        rw [hcond.2]
        have hthead : t.head? ≠ some '"' := by
          intro h
          cases t with
          | nil => simp at h
          | cons c t' =>
            simp only [List.head?_cons, Option.some.injEq] at h
            have : hasQQ (b :: c :: t') = ((b = '"' && c = '"') || hasQQ (c :: t')) := rfl
            rw [this, hcond.2, h] at hqq'
            simp at hqq'
        have hqt : hasQQ t = false := by
          cases t with
          | nil => rfl
          | cons c t' =>
            have : hasQQ (b :: c :: t') = ((b = '"' && c = '"') || hasQQ (c :: t')) := rfl
            rw [this] at hqq'
            exact (Bool.or_eq_false_iff.mp hqq').2
        have hlt : t.length ≤ n := by
          simp only [List.length_cons] at hk
          omega
        rw [ih t hlt hthead hqt (some '"')]
      · rw [escaped_key, if_neg hcond]
        rw [specEscapeAux, if_neg (by simp [ha])]
        by_cases hb : b = '"'
        · have habsl : a = bsl := by
            by_contra hab
            exact hcond ⟨hab, hb⟩
          subst habsl hb
          congr 1
          rw [specEscapeAux, if_neg (by simp)]
          cases t with
          | nil => rfl
          | cons c t' =>
            have hc : ¬ c = '"' := by
              intro h
              have : hasQQ ('"' :: c :: t') = (('"' = '"' && c = '"') || hasQQ (c :: t')) := rfl
              rw [this, h] at hqq'
              simp at hqq'
            rw [escaped_key, if_neg (by rintro ⟨-, h⟩; exact hc h)]
            congr 1
            have hqt : hasQQ (c :: t') = false := by
              have : hasQQ ('"' :: c :: t') = (('"' = '"' && c = '"') || hasQQ (c :: t')) := rfl
              rw [this] at hqq'
              exact (Bool.or_eq_false_iff.mp hqq').2
            have hlt : (c :: t').length ≤ n := by
              simp only [List.length_cons] at hk ⊢
              omega
            exact ih (c :: t') hlt (by simp [hc]) hqt (some '"')
        · have hlt : (b :: t).length ≤ n := by
            simp only [List.length_cons] at hk ⊢
            omega
          rw [ih (b :: t) hlt (by simp [hb]) hqq' (some a)]

/-- C2 (amended): for every key that does not start with a double quote and
contains no two consecutive double quotes, the code's key-escaping step
inserts a backslash before exactly those double quotes that are not already
preceded by a backslash, i.e. it agrees with the claim's description
`specEscape`. -/
theorem claim_C2_escaping_amended (k : Str)
    (h1 : k.head? ≠ some '"') (h2 : hasQQ k = false) :
    escaped_key k = specEscape k :=
  escaped_key_spec_aux k.length k (Nat.le_refl _) h1 h2 none

/-- Witness for the amended C2 at the spec's own example key
`He said "hi"`. -/
theorem claim_C2_escaping_amended_witness :
    ("He said \"hi\"".toList.head? ≠ some '"' ∧ hasQQ "He said \"hi\"".toList = false) ∧
      escaped_key "He said \"hi\"".toList = specEscape "He said \"hi\"".toList :=
  ⟨⟨by decide, by decide⟩,
    claim_C2_escaping_amended "He said \"hi\"".toList (by decide) (by decide)⟩

/-! ## Membership-chase lemmas for the matcher -/

theorem mem_pmatches_lit {l s : Str} {c : Caps} {r : Str × Caps}
    (h : r ∈ pmatches (.lit l) s c) :
    l.isPrefixOf s = true ∧ r = (s.drop l.length, c) := by
  rw [pmatches_lit] at h
  by_cases hp : l.isPrefixOf s
  · rw [if_pos hp] at h
    exact ⟨hp, List.mem_singleton.mp h⟩
  · rw [if_neg hp] at h
    simp at h

theorem mem_pmatches_cls {f : Char → Bool} {s : Str} {c : Caps} {r : Str × Caps}
    (h : r ∈ pmatches (.cls f) s c) :
    ∃ a t, s = a :: t ∧ f a = true ∧ r = (t, c) := by
  cases s with
  | nil => rw [pmatches_cls_nil] at h; simp at h
  | cons a t =>
    rw [pmatches_cls_cons] at h
    by_cases hf : f a
    · rw [if_pos hf] at h
      exact ⟨a, t, rfl, hf, List.mem_singleton.mp h⟩
    · rw [if_neg hf] at h
      simp at h

theorem mem_pmatches_seq {p q : Pat} {s : Str} {c : Caps} {r : Str × Caps} :
    r ∈ pmatches (.seq p q) s c ↔ ∃ r₁ ∈ pmatches p s c, r ∈ pmatches q r₁.1 r₁.2 := by
  rw [pmatches_seq]
  exact mem_cmap

theorem mem_pmatches_grp {i : Nat} {p : Pat} {s : Str} {c : Caps} {r : Str × Caps}
    (h : r ∈ pmatches (.grp i p) s c) :
    ∃ r₁ ∈ pmatches p s c,
      r = (r₁.1, (i, s.take (s.length - r₁.1.length)) :: r₁.2) := by
  rw [pmatches_grp] at h
  rcases List.mem_map.mp h with ⟨r₁, hr₁, hrr⟩
  exact ⟨r₁, hr₁, hrr.symm⟩

theorem mem_pmatches_starG_cls {f : Char → Bool} {s : Str} {c : Caps} {r : Str × Caps}
    (h : r ∈ pmatches (.starG (.cls f)) s c) :
    (∃ u, s = u ++ r.1 ∧ ∀ x ∈ u, f x = true) ∧ r.2 = c := by
  rw [pmatches_starG_cls] at h
  rcases List.mem_map.mp h with ⟨t, ht, hrr⟩
  subst hrr
  exact ⟨mem_runG.mp ht, rfl⟩

theorem mem_pmatches_starL_cls {f : Char → Bool} {s : Str} {c : Caps} {r : Str × Caps}
    (h : r ∈ pmatches (.starL (.cls f)) s c) :
    (∃ u, s = u ++ r.1) ∧ r.2 = c := by
  rw [pmatches_starL_cls] at h
  rcases List.mem_map.mp h with ⟨t, ht, hrr⟩
  subst hrr
  refine ⟨?_, rfl⟩
  clear h
  induction s with
  | nil =>
    simp only [runL, List.mem_singleton] at ht
    exact ⟨[], by simp [ht]⟩
  | cons a s ih =>
    rw [runL] at ht
    rcases List.mem_cons.mp ht with rfl | ht
    · exact ⟨[], rfl⟩
    · by_cases hf : f a
      · rw [if_pos hf] at ht
        rcases ih ht with ⟨u, hu⟩
        exact ⟨a :: u, by rw [List.cons_append, ← hu]⟩
      · rw [if_neg hf] at ht
        simp at ht

/-- `lazyPlusNoNL` (the encoding of `(.+?)`) consumes at least one character
and records no captures. -/
theorem mem_lazyPlusNoNL {s : Str} {c : Caps} {r : Str × Caps}
    (h : r ∈ pmatches lazyPlusNoNL s c) :
    r.1.length < s.length ∧ r.2 = c := by
  unfold lazyPlusNoNL at h
  rcases mem_pmatches_seq.mp h with ⟨r₁, hr₁, hr⟩
  rcases mem_pmatches_cls hr₁ with ⟨a, t, rfl, hf, rfl⟩
  rcases mem_pmatches_starL_cls hr with ⟨⟨u, hu⟩, hc⟩
  constructor
  · have hu' : t = u ++ r.1 := hu
    have hlen : t.length = u.length + r.1.length := by rw [hu']; simp
    simp only [List.length_cons]
    omega
  · exact hc

/-- Every capture list reported by a `findAll` scan comes from a match of the
pattern on some suffix of the input. -/
theorem mem_findAll {p : Pat} :
    ∀ (n : Nat) (s : Str), s.length ≤ n → ∀ caps ∈ findAll p s,
      ∃ s' r, (∃ u, s = u ++ s') ∧ r ∈ pmatches p s' [] ∧ r.2 = caps := by
  intro n
  induction n with
  | zero =>
    intro s hs caps hcaps
    obtain rfl : s = [] := List.length_eq_zero.mp (Nat.le_zero.mp hs)
    rcases hh : (pmatches p [] []).head? with _ | r
    · rw [findAll_nil_of_none hh] at hcaps
      simp at hcaps
    · rw [findAll_nil_of_some hh] at hcaps
      rcases List.mem_singleton.mp hcaps with rfl
      exact ⟨[], r, ⟨[], rfl⟩, List.mem_of_mem_head? hh, rfl⟩
  | succ n ih =>
    intro s hs caps hcaps
    cases s with
    | nil => exact ih [] (by simp) caps hcaps
    | cons x t =>
      rcases hh : (pmatches p (x :: t) []).head? with _ | r
      · rw [findAll_cons_none hh] at hcaps
        rcases ih t (by simpa using hs) caps hcaps with ⟨s', r, ⟨u, hu⟩, hr, hcr⟩
        exact ⟨s', r, ⟨x :: u, by rw [hu]; rfl⟩, hr, hcr⟩
      · have hrmem := List.mem_of_mem_head? hh
        by_cases hlen : r.1.length < (x :: t).length
        · rw [findAll_progress hh hlen] at hcaps
          rcases List.mem_cons.mp hcaps with rfl | hcaps
          · exact ⟨x :: t, r, ⟨[], rfl⟩, hrmem, rfl⟩
          · have hr1 : r.1.length ≤ n := by
              simp only [List.length_cons] at hs hlen
              omega
            rcases ih r.1 hr1 caps hcaps with ⟨s', r', ⟨u, hu⟩, hr', hcr'⟩
            rcases pmatches_suffix p (x :: t) [] r hrmem with ⟨v, hv⟩
            exact ⟨s', r', ⟨v ++ u, by rw [hv, hu, List.append_assoc]⟩, hr', hcr'⟩
        · rw [findAll_cons_noprogress hh hlen] at hcaps
          rcases List.mem_cons.mp hcaps with rfl | hcaps
          · exact ⟨x :: t, r, ⟨[], rfl⟩, hrmem, rfl⟩
          · rcases ih t (by simpa using hs) caps hcaps with ⟨s', r', ⟨u, hu⟩, hr', hcr'⟩
            exact ⟨s', r', ⟨x :: u, by rw [hu]; rfl⟩, hr', hcr'⟩

/-! ## The marker pattern captures are never empty (C9) -/

/-- Any match of `JTL_REGEX` has exactly the captures
`[(2, comment), (1, key)]` with both non-empty. -/
theorem jtl_caps_shape (s : Str) (r : Str × Caps)
    (h : r ∈ pmatches JTL_REGEX s []) :
    ∃ x y : Str, r.2 = [(2, y), (1, x)] ∧ x ≠ [] ∧ y ≠ [] := by
  unfold JTL_REGEX at h
  rcases mem_pmatches_seq.mp h with ⟨r1, hr1, h⟩
  rcases mem_pmatches_lit hr1 with ⟨-, rfl⟩
  rcases mem_pmatches_seq.mp h with ⟨r2, hr2, h⟩
  rcases mem_pmatches_cls hr2 with ⟨a2, t2, hs2, -, rfl⟩
  rcases mem_pmatches_seq.mp h with ⟨r3, hr3, h⟩
  rcases mem_pmatches_grp hr3 with ⟨r3', hr3', rfl⟩
  rcases mem_lazyPlusNoNL hr3' with ⟨hlen3, hcaps3⟩
  rcases mem_pmatches_seq.mp h with ⟨r4, hr4, h⟩
  rcases mem_pmatches_cls hr4 with ⟨a4, t4, hs4, -, rfl⟩
  rcases mem_pmatches_seq.mp h with ⟨r5, hr5, h⟩
  rcases mem_pmatches_lit hr5 with ⟨-, rfl⟩
  rcases mem_pmatches_seq.mp h with ⟨r6, hr6, h⟩
  rcases mem_pmatches_starG_cls hr6 with ⟨-, hcaps6⟩
  rcases mem_pmatches_seq.mp h with ⟨r7, hr7, h⟩
  rcases mem_pmatches_cls hr7 with ⟨a7, t7, hs7, -, rfl⟩
  rcases mem_pmatches_seq.mp h with ⟨r8, hr8, h⟩
  rcases mem_pmatches_grp hr8 with ⟨r8', hr8', rfl⟩
  rcases mem_lazyPlusNoNL hr8' with ⟨hlen8, hcaps8⟩
  rcases mem_pmatches_seq.mp h with ⟨r9, hr9, h⟩
  rcases mem_pmatches_cls hr9 with ⟨a9, t9, hs9, -, rfl⟩
  rcases mem_pmatches_lit h with ⟨-, rfl⟩
  refine ⟨t2.take (t2.length - r3'.1.length), t7.take (t7.length - r8'.1.length), ?_, ?_, ?_⟩
  · simp only [hcaps8, hcaps6, hcaps3]
  · have : t2.length - r3'.1.length ≥ 1 := by
      have := hlen3
      simp only [List.length_cons] at this ⊢
      omega
    intro hnil
    have := congrArg List.length hnil
    simp only [List.length_take, List.length_nil] at this
    omega
  · have : t7.length - r8'.1.length ≥ 1 := by
      have := hlen8
      simp only [List.length_cons] at this ⊢
      omega
    intro hnil
    have := congrArg List.length hnil
    simp only [List.length_take, List.length_nil] at this
    omega

/-- C9: the marker pattern only matches with non-empty KEY and COMMENT — no
pair reported by the extraction has an empty key or an empty comment — and
in particular the texts `JTL('', 'comment')` and `JTL('key', '')` contribute
no pair at all. -/
theorem claim_C9_marker_requires_nonempty :
    (∀ (text : Str) (pair : Str × Str), pair ∈ extract_jtl_string_pairs text →
        pair.1 ≠ [] ∧ pair.2 ≠ []) ∧
    extract_jtl_string_pairs "JTL('', 'comment')".toList = [] ∧
    extract_jtl_string_pairs "JTL('key', '')".toList = [] := by
  refine ⟨?_, by decide, by decide⟩
  intro text pair hpair
  unfold extract_jtl_string_pairs at hpair
  rcases List.mem_map.mp hpair with ⟨caps, hcaps, rfl⟩
  rcases mem_findAll text.length text (Nat.le_refl _) caps hcaps with
    ⟨s', r, -, hr, rfl⟩
  rcases jtl_caps_shape s' r hr with ⟨x, y, hshape, hx, hy⟩
  rw [hshape]
  simp only [grpGet]
  exact ⟨by simpa using hx, by simpa using hy⟩

/-- Witness for C9's universal part at a concrete input: the pair extracted
from `JTL('A', 'B')` has non-empty key and comment. -/
theorem claim_C9_marker_requires_nonempty_witness :
    ("A".toList, "B".toList) ∈ extract_jtl_string_pairs "JTL('A', 'B')".toList ∧
      ("A".toList, "B".toList).1 ≠ [] ∧ ("A".toList, "B".toList).2 ≠ [] :=
  ⟨by decide,
    claim_C9_marker_requires_nonempty.1 "JTL('A', 'B')".toList
      ("A".toList, "B".toList) (by decide)⟩

/-! ## A `;` not followed by a newline yields no record (C8) -/

/-- The record pattern necessarily consumes two newlines: the one closing the
block comment (`*/\n`) and the one required after `;` by `;\s*\n`. -/
theorem minC_newline_record :
    minC '\n' HEADER_COMMENT_KEY_VALUE_TUPLES_REGEX = 2 := by
  decide

/-- C8: a text consisting of a single otherwise well-formed entry whose
terminating `;` is followed only by newline-free text (in particular, by
nothing, or by spaces without a final newline) yields no record at all: the
record pattern requires the `;` to be followed by (whitespace and) a
newline, and the only newline of such a text is the one closing the block
comment. -/
theorem claim_C8_terminator_needs_newline (c k w : Str)
    (hc : '\n' ∉ c) (hk : '\n' ∉ k) (hw : '\n' ∉ w) :
    extract_header_comment_key_value_tuples_from_file
      ("/* ".toList ++ c ++ " */\n".toList ++ ['"'] ++ k ++ "\" = \"".toList ++
        k ++ "\";".toList ++ w) = [] := by
  unfold extract_header_comment_key_value_tuples_from_file
  rw [findAll_eq_nil]
  · rfl
  · intro s' hs'
    apply pmatches_eq_nil_of_count (x := '\n')
    rw [minC_newline_record]
    have hle := count_le_of_suffix (x := '\n') hs'
    have htext :
        ("/* ".toList ++ c ++ " */\n".toList ++ ['"'] ++ k ++ "\" = \"".toList ++
          k ++ "\";".toList ++ w).count '\n' = 1 := by
      simp only [List.count_append]
      rw [List.count_eq_zero.mpr hc, List.count_eq_zero.mpr hk,
        List.count_eq_zero.mpr hw]
      decide
    omega

/-- Witness for C8 at a concrete input: `/* Button */\n"K" = "K";` parses to
nothing. -/
theorem claim_C8_terminator_needs_newline_witness :
    ('\n' ∉ "Button".toList ∧ '\n' ∉ "K".toList ∧ '\n' ∉ ([] : Str)) ∧
      extract_header_comment_key_value_tuples_from_file
        ("/* ".toList ++ "Button".toList ++ " */\n".toList ++ ['"'] ++ "K".toList ++
          "\" = \"".toList ++ "K".toList ++ "\";".toList ++ []) = [] :=
  ⟨⟨by decide, by decide, by decide⟩,
    claim_C8_terminator_needs_newline "Button".toList "K".toList []
      (by decide) (by decide) (by decide)⟩

/-! ## Infrastructure for the positive match characterization (C1, C7, C10) -/

theorem prefix_decomp {l s : Str} (h : l.isPrefixOf s = true) :
    s = l ++ s.drop l.length := by
  rcases List.isPrefixOf_iff_prefix.mp h with ⟨t, rfl⟩
  simp

theorem take_len_append (l t : Str) : (l ++ t).take l.length = l := by
  induction l with
  | nil => rfl
  | cons a l ih => simp [List.take, ih]

theorem drop_len_append (l t : Str) : (l ++ t).drop l.length = t := by
  induction l with
  | nil => rfl
  | cons a l ih => simp [List.drop, ih]

/-- Splitting an append at an occurrence of a character that does not occur in
the first part: the occurrence lies in the second part. -/
theorem occ_in_right {x : Char} :
    ∀ (a b u v : Str), x ∉ a → a ++ b = u ++ x :: v →
      ∃ w, u = a ++ w ∧ b = w ++ x :: v := by
  intro a
  induction a with
  | nil =>
    intro b u v _ h
    exact ⟨u, rfl, h⟩
  | cons a₀ a' ih =>
    intro b u v hx h
    cases u with
    | nil =>
      simp only [List.nil_append] at h
      injection h with h₁ h₂
      exact absurd (h₁ ▸ List.mem_cons_self a₀ a') (by subst h₁; exact hx)
    | cons u₀ u' =>
      rw [List.cons_append, List.cons_append] at h
      injection h with h₁ h₂
      subst h₁
      rcases ih b u' v (fun hm => hx (List.mem_cons_of_mem _ hm)) h₂ with ⟨w, hw₁, hw₂⟩
      exact ⟨w, by rw [hw₁]; rfl, hw₂⟩

/-- If all nonempty `f`-values agree, the head of the concatenation is the
head of that common value. -/
theorem head_cmap_const {f : α → List β} {L : List α} {Y : List β}
    (hall : ∀ a ∈ L, f a = [] ∨ f a = Y) (hex : ∃ a ∈ L, f a ≠ []) :
    (cmap f L).head? = Y.head? := by
  have hY : Y ≠ [] := by
    rcases hex with ⟨a, ha, hne⟩
    rcases hall a ha with h | h
    · exact absurd h hne
    · exact h ▸ hne
  rcases hYc : Y with _ | ⟨y, ys⟩
  · exact absurd hYc hY
  subst hYc
  induction L with
  | nil => rcases hex with ⟨a, ha, -⟩; simp at ha
  | cons a L ih =>
    rcases hall a (List.mem_cons_self _ _) with h | h
    · rw [cmap_cons, h, List.nil_append]
      apply ih
      · rcases hex with ⟨a', ha', hne⟩
        rcases List.mem_cons.mp ha' with rfl | ha'
        · exact absurd h hne
        · exact ⟨a', ha', hne⟩
      · intro a' ha'
        exact hall a' (List.mem_cons_of_mem _ ha')
    · rw [cmap_cons, h]
      rfl

/-- Dropping a prefix of elements whose `f`-value is empty does not change
the head of the concatenation. -/
theorem cmap_head_skip {f : α → List β} :
    ∀ {A : List α} (B : List α), (∀ a ∈ A, f a = []) →
      (cmap f (A ++ B)).head? = (cmap f B).head? := by
  intro A
  induction A with
  | nil => intro B _; rfl
  | cons a A ih =>
    intro B hA
    rw [List.cons_append, cmap_cons, hA a (List.mem_cons_self _ _), List.nil_append]
    exact ih B fun a' ha' => hA a' (List.mem_cons_of_mem _ ha')

/-- If the first element already contributes, it decides the head of the
concatenation. -/
theorem cmap_head_first {f : α → List β} {a : α} (L : List α)
    (h : f a ≠ []) : (cmap f (a :: L)).head? = (f a).head? := by
  rcases hfa : f a with _ | ⟨y, ys⟩
  · exact absurd hfa h
  · rw [cmap_cons, hfa]
    rfl

theorem runL_split {f : Char → Bool} :
    ∀ (kk X : Str), (∀ x ∈ kk, f x = true) →
      runL f (kk ++ X) = dropsAlong X kk ++ runL f X := by
  intro kk
  induction kk with
  | nil => intro X _; rfl
  | cons a t ih =>
    intro X hall
    rw [List.cons_append, runL, if_pos (hall a (List.mem_cons_self _ _)),
      dropsAlong, List.cons_append]
    rw [ih X fun x hx => hall x (List.mem_cons_of_mem _ hx)]

theorem mem_dropsAlong {X : Str} :
    ∀ {kk e : Str}, e ∈ dropsAlong X kk → ∃ a t, e = a :: t ∧ a ∈ kk := by
  intro kk
  induction kk with
  | nil => intro e he; simp [dropsAlong] at he
  | cons a t ih =>
    intro e he
    rw [dropsAlong] at he
    rcases List.mem_cons.mp he with rfl | he
    · exact ⟨a, t ++ X, rfl, List.mem_cons_self _ _⟩
    · rcases ih he with ⟨a', t', rfl, ha'⟩
      exact ⟨a', t', rfl, List.mem_cons_of_mem _ ha'⟩

theorem hasStarSlash_of_append_right :
    ∀ (u d : Str), hasStarSlash d = true → hasStarSlash (u ++ d) = true := by
  intro u
  induction u with
  | nil => intro d h; exact h
  | cons a u ih =>
    intro d h
    have hd := ih d h
    rcases hud : u ++ d with _ | ⟨b, t⟩
    · rw [hud] at hd
      simp [hasStarSlash] at hd
    · rw [List.cons_append, hud, hasStarSlash]
      rw [hud] at hd
      simp [hd]

theorem hasStarSlash_of_decomp {c u v : Str} (h : c = u ++ '*' :: '/' :: v) :
    hasStarSlash c = true := by
  subst h
  apply hasStarSlash_of_append_right
  simp [hasStarSlash]

theorem mem_escaped_key_aux {x : Char} :
    ∀ (n : Nat) (k : Str), k.length ≤ n → x ∈ k → x ∈ escaped_key k := by
  intro n
  induction n with
  | zero =>
    intro k hk hx
    obtain rfl : k = [] := List.length_eq_zero.mp (Nat.le_zero.mp hk)
    simp at hx
  | succ n ih =>
    intro k hk hx
    match k with
    | [] => simp at hx
    | [a] => simpa [escaped_key] using hx
    | a :: b :: t =>
      rw [escaped_key]
      by_cases hcond : a ≠ bsl ∧ b = '"'
      · rw [if_pos hcond]
        rcases List.mem_cons.mp hx with rfl | hx
        · exact List.mem_cons_self _ _
        · rcases List.mem_cons.mp hx with rfl | hx
          · rw [hcond.2]
            exact List.mem_cons_of_mem _
              (List.mem_cons_of_mem _ (List.mem_cons_self _ _))
          · have hlt : t.length ≤ n := by
              simp only [List.length_cons] at hk
              omega
            exact List.mem_cons_of_mem _
              (List.mem_cons_of_mem _ (List.mem_cons_of_mem _ (ih t hlt hx)))
      · rw [if_neg hcond]
        rcases List.mem_cons.mp hx with rfl | hx
        · exact List.mem_cons_self _ _
        · have hlt : (b :: t).length ≤ n := by
            simp only [List.length_cons] at hk ⊢
            omega
          exact List.mem_cons_of_mem _ (ih (b :: t) hlt hx)

/-- Escaping only inserts characters: any character of the key survives into
the escaped key. -/
theorem mem_escaped_key_of_mem {x : Char} {k : Str} (h : x ∈ k) :
    x ∈ escaped_key k :=
  mem_escaped_key_aux k.length k (Nat.le_refl _) h

/-- On a quote-free key the escaping substitution is the identity. -/
theorem escaped_key_id :
    ∀ (n : Nat) (k : Str), k.length ≤ n → '"' ∉ k → escaped_key k = k := by
  intro n
  induction n with
  | zero =>
    intro k hk _
    obtain rfl : k = [] := List.length_eq_zero.mp (Nat.le_zero.mp hk)
    rfl
  | succ n ih =>
    intro k hk hq
    match k with
    | [] => rfl
    | [a] => rfl
    | a :: b :: t =>
      rw [escaped_key, if_neg (by
        rintro ⟨-, rfl⟩
        exact hq (List.mem_cons_of_mem _ (List.mem_cons_self _ _)))]
      rw [ih (b :: t) (by simp only [List.length_cons] at hk ⊢; omega)
        (fun hm => hq (List.mem_cons_of_mem _ hm))]

/-! ## Characterizing matches of the comment part -/

/-- Soundness of the comment-part matcher: every match consumes
`/*`, a `;`-free stretch, and a closing `*/` followed by a newline, and it
leaves the captures untouched. -/
theorem commentPart_cut {s : Str} {c : Caps} {r : Str × Caps}
    (h : r ∈ pmatches commentPart s c) :
    ∃ P, s = '/' :: '*' :: (P ++ '*' :: '/' :: '\n' :: r.1) ∧ ';' ∉ P ∧ r.2 = c := by
  unfold commentPart at h
  rcases mem_pmatches_seq.mp h with ⟨r1, hr1, h⟩
  rcases mem_pmatches_lit hr1 with ⟨hpre1, rfl⟩
  rcases mem_pmatches_seq.mp h with ⟨r2, hr2, h⟩
  rcases mem_pmatches_starG_cls hr2 with ⟨⟨u1, hu1, hsp1⟩, hc2⟩
  rcases mem_pmatches_seq.mp h with ⟨r3, hr3, h⟩
  rcases mem_pmatches_starG_cls hr3 with ⟨⟨u2, hu2, hns⟩, hc3⟩
  rcases mem_pmatches_seq.mp h with ⟨r4, hr4, h⟩
  rcases mem_pmatches_starG_cls hr4 with ⟨⟨u3, hu3, hsp3⟩, hc4⟩
  rcases mem_pmatches_lit h with ⟨hpre5, hr5⟩
  have hdec5 : r4.1 = '*' :: '/' :: '\n' :: r.1 := by
    have := prefix_decomp hpre5
    rw [hr5]
    exact this
  refine ⟨u1 ++ u2 ++ u3, ?_, ?_, ?_⟩
  · have hs : ('/' :: '*' :: List.drop 2 s) = s := (prefix_decomp hpre1).symm
    have hu1' : List.drop 2 s = u1 ++ r2.1 := hu1
    rw [← hs, hu1', hu2, hu3, hdec5]
    simp [List.append_assoc]
  · intro hmem
    rcases List.mem_append.mp hmem with hmem | hmem
    · rcases List.mem_append.mp hmem with hmem | hmem
      · have := hsp1 ';' hmem
        simp [spaceCls] at this
      · have := hns ';' hmem
        simp [notSemi] at this
    · have := hsp3 ';' hmem
      simp [spaceCls] at this
  · rw [hr5]
    simp only [hc4, hc3, hc2]

/-- Completeness at the canonical cut: the comment part does match consuming
exactly `/*` + interior + `*/` + newline, leaving the captures untouched. -/
theorem commentPart_canonical (I rest' : Str) (c : Caps) (hIs : ';' ∉ I) :
    (rest', c) ∈ pmatches commentPart ('/' :: '*' :: (I ++ '*' :: '/' :: '\n' :: rest')) c := by
  unfold commentPart
  apply mem_pmatches_seq.mpr
  refine ⟨(I ++ '*' :: '/' :: '\n' :: rest', c), ?_, ?_⟩
  · rw [pmatches_lit, if_pos (by simp [List.isPrefixOf])]
    exact List.mem_singleton.mpr rfl
  apply mem_pmatches_seq.mpr
  refine ⟨(I ++ '*' :: '/' :: '\n' :: rest', c), ?_, ?_⟩
  · rw [pmatches_starG_cls]
    exact List.mem_map.mpr ⟨_, mem_runG.mpr ⟨[], rfl, by simp⟩, rfl⟩
  apply mem_pmatches_seq.mpr
  refine ⟨('*' :: '/' :: '\n' :: rest', c), ?_, ?_⟩
  · rw [pmatches_starG_cls]
    refine List.mem_map.mpr ⟨_, mem_runG.mpr ⟨I, rfl, ?_⟩, rfl⟩
    intro x hx
    simp only [notSemi, bne_iff_ne, ne_eq, decide_eq_true_eq]
    intro hxeq
    exact hIs (hxeq ▸ hx)
  apply mem_pmatches_seq.mpr
  refine ⟨('*' :: '/' :: '\n' :: rest', c), ?_, ?_⟩
  · rw [pmatches_starG_cls]
    exact List.mem_map.mpr ⟨_, mem_runG.mpr ⟨[], rfl, by simp⟩, rfl⟩
  · rw [pmatches_lit, if_pos (by simp [List.isPrefixOf])]
    exact List.mem_singleton.mpr rfl

/-! ## Characterizing matches of the key/value part -/

theorem ne_nil_of_head? {l : List α} {b : α} (h : l.head? = some b) : l ≠ [] := by
  cases l with
  | nil => simp at h
  | cons x t => simp

theorem cmap_eq_nil {f : α → List β} {L : List α}
    (h : ∀ a ∈ L, f a = []) : cmap f L = [] := by
  induction L with
  | nil => rfl
  | cons a L ih =>
    rw [cmap_cons, h a (List.mem_cons_self _ _), List.nil_append]
    exact ih fun a' ha' => h a' (List.mem_cons_of_mem _ ha')

theorem isPrefixOf_append (L s' : Str) : L.isPrefixOf (L ++ s') = true :=
  List.isPrefixOf_iff_prefix.mpr ⟨s', rfl⟩

/-- Matching a sequence that starts with a literal present at the front of
the input: consume the literal and continue. -/
theorem pmatches_seq_lit (L s' : Str) (Q : Pat) (cc : Caps) :
    pmatches (.seq (.lit L) Q) (L ++ s') cc = pmatches Q s' cc := by
  rw [pmatches_seq, pmatches_lit, if_pos (isPrefixOf_append L s')]
  rw [cmap_cons, cmap_nil, List.append_nil, drop_len_append]

/-- Matching a sequence that starts with a literal absent at the front of
the input fails. -/
theorem pmatches_seq_lit_fail {L s : Str} (Q : Pat) (cc : Caps)
    (h : L.isPrefixOf s = false) :
    pmatches (.seq (.lit L) Q) s cc = [] := by
  rw [pmatches_seq, pmatches_lit, h]
  rfl

theorem isPrefixOf_cons_false {y a : Char} {t s : Str} (h : y ≠ a) :
    (y :: t).isPrefixOf (a :: s) = false := by
  simp [List.isPrefixOf, h]

theorem runL_exists_cons (f : Char → Bool) (X : Str) :
    ∃ TAIL, runL f X = X :: TAIL := by
  cases X with
  | nil => exact ⟨[], rfl⟩
  | cons x xs => exact ⟨_, rfl⟩

theorem mem_dropsAlong_decomp {X : Str} :
    ∀ {kk e : Str}, e ∈ dropsAlong X kk →
      ∃ d, d ≠ [] ∧ (∃ u, kk = u ++ d) ∧ e = d ++ X := by
  intro kk
  induction kk with
  | nil => intro e he; simp [dropsAlong] at he
  | cons a t ih =>
    intro e he
    rw [dropsAlong] at he
    rcases List.mem_cons.mp he with rfl | he
    · exact ⟨a :: t, by simp, ⟨[], rfl⟩, by simp⟩
    · rcases ih he with ⟨d, hd, ⟨u, hu⟩, he'⟩
      exact ⟨d, hd, ⟨a :: u, by rw [hu]; rfl⟩, he'⟩

/-- The central scan lemma: a captured lazy star (`(.*?)` under a group)
walking across a block `k` towards a continuation that fails on every
intermediate cut and succeeds right after `k` — the first (and reported)
match captures exactly `k`. -/
theorem grp_lazy_scan {i : Nat} {f : Char → Bool} {Q : Pat} {k X : Str} (cc : Caps)
    (hkf : ∀ x ∈ k, f x = true)
    (hfail : ∀ e ∈ dropsAlong X k, ∀ ccc : Caps, pmatches Q e ccc = [])
    (hsucc : pmatches Q X ((i, k) :: cc) ≠ []) :
    (pmatches (.seq (.grp i (.starL (.cls f))) Q) (k ++ X) cc).head? =
      (pmatches Q X ((i, k) :: cc)).head? ∧
    pmatches (.seq (.grp i (.starL (.cls f))) Q) (k ++ X) cc ≠ [] := by
  rw [pmatches_seq, pmatches_grp, pmatches_starL_cls, runL_split k X hkf]
  rw [List.map_map, cmap_map]
  set F := fun t : Str =>
    pmatches Q t ((i, (k ++ X).take ((k ++ X).length - t.length)) :: cc) with hF
  have hcap : (k ++ X).take ((k ++ X).length - X.length) = k := by
    have : (k ++ X).length - X.length = k.length := by
      simp [List.length_append]
    rw [this, take_len_append]
  have hFX : F X = pmatches Q X ((i, k) :: cc) := by
    rw [hF]
    simp only []
    rw [hcap]
  have hfail' : ∀ e ∈ dropsAlong X k, F e = [] := by
    intro e he
    rw [hF]
    exact hfail e he _
  rcases runL_exists_cons f X with ⟨TAIL, hTAIL⟩
  constructor
  · show (cmap F (dropsAlong X k ++ runL f X)).head? = _
    rw [cmap_head_skip (runL f X) hfail', hTAIL]
    rw [cmap_head_first TAIL (by rw [hFX]; exact hsucc)]
    rw [hFX]
  · show cmap F (dropsAlong X k ++ runL f X) ≠ []
    rw [cmap_append, cmap_eq_nil hfail', List.nil_append, hTAIL, cmap_cons]
    intro hnil
    rw [hFX] at hnil
    exact hsucc (by
      rcases List.append_eq_nil.mp hnil with ⟨h1, -⟩
      exact h1)

theorem cmap_pair_head {f : α → List β} (a b : α) (h : f a ≠ []) :
    (cmap f [a, b]).head? = (f a).head? := by
  rcases List.exists_cons_of_ne_nil h with ⟨y, ys, hy⟩
  rw [cmap_cons, hy]
  rfl

theorem cmap_pair_ne_nil {f : α → List β} (a b : α) (h : f a ≠ []) :
    cmap f [a, b] ≠ [] := by
  rw [cmap_cons]
  intro hnil
  exact h (List.append_eq_nil.mp hnil).1

theorem kvQ9_run (extra : Str) (hx : nonWsHead extra) (cc : Caps) :
    pmatches kvQ9 ('\n' :: extra) cc = [(extra, cc)] := by
  unfold kvQ9
  rw [pmatches_seq, pmatches_starG_cls]
  rcases hx with rfl | ⟨a, t, rfl, ha⟩
  · have hrun : runG pySpace ['\n'] = [[], ['\n']] := by
      rw [runG, if_pos (by decide)]
      rfl
    rw [hrun]
    simp [cmap, pmatches_lit, List.isPrefixOf]
  · have hrun : runG pySpace ('\n' :: a :: t) = [a :: t, '\n' :: a :: t] := by
      rw [runG, if_pos (by decide), runG, if_neg (by simp [ha])]
      rfl
    rw [hrun]
    have hanl : a ≠ '\n' := by
      intro h
      subst h
      simp [pySpace] at ha
    simp only [List.map_cons, List.map_nil, cmap_cons, cmap_nil]
    have h1 : pmatches (Pat.lit ['\n']) (a :: t) cc = [] := by
      rw [pmatches_lit]
      rw [isPrefixOf_cons_false (Ne.symm hanl)]
      simp
    have h2 : pmatches (Pat.lit ['\n']) ('\n' :: a :: t) cc = [(a :: t, cc)] := by
      rw [pmatches_lit, if_pos (by simp [List.isPrefixOf])]
      rfl
    rw [h1, h2]
    simp

theorem kvQ8_run (extra : Str) (hx : nonWsHead extra) (cc : Caps) :
    pmatches kvQ8 ('"' :: ';' :: '\n' :: extra) cc = [(extra, cc)] := by
  unfold kvQ8
  rw [show ('"' :: ';' :: '\n' :: extra) = ['"', ';'] ++ ('\n' :: extra) from rfl,
    pmatches_seq_lit, kvQ9_run extra hx cc]

theorem kvQ8_fail {a : Char} (t : Str) (cc : Caps) (ha : a ≠ '"') :
    pmatches kvQ8 (a :: t) cc = [] := by
  unfold kvQ8
  exact pmatches_seq_lit_fail _ _ (isPrefixOf_cons_false (fun h => ha h.symm))

theorem kvQ7_scan (k extra : Str) (hk : '"' ∉ k) (hx : nonWsHead extra) (cc : Caps) :
    (pmatches kvQ7 (k ++ '"' :: ';' :: '\n' :: extra) cc).head? =
      some (extra, (5, k) :: cc) ∧
    pmatches kvQ7 (k ++ '"' :: ';' :: '\n' :: extra) cc ≠ [] := by
  unfold kvQ7
  have h := grp_lazy_scan (i := 5) (f := dotAll) (Q := kvQ8)
    (k := k) (X := '"' :: ';' :: '\n' :: extra) cc
    (fun x _ => rfl)
    (by
      intro e he ccc
      rcases mem_dropsAlong he with ⟨a, t, rfl, hak⟩
      exact kvQ8_fail t ccc (fun h => hk (h ▸ hak)))
    (by rw [kvQ8_run extra hx]; simp)
  refine ⟨?_, h.2⟩
  rw [h.1, kvQ8_run extra hx]
  rfl

theorem kvQ6_run (k extra : Str) (hk : '"' ∉ k) (hx : nonWsHead extra) (cc : Caps) :
    (pmatches kvQ6 ('"' :: (k ++ '"' :: ';' :: '\n' :: extra)) cc).head? =
      some (extra, (5, k) :: cc) ∧
    pmatches kvQ6 ('"' :: (k ++ '"' :: ';' :: '\n' :: extra)) cc ≠ [] := by
  unfold kvQ6
  rw [show ('"' :: (k ++ '"' :: ';' :: '\n' :: extra)) =
    ['"'] ++ (k ++ '"' :: ';' :: '\n' :: extra) from rfl, pmatches_seq_lit]
  exact kvQ7_scan k extra hk hx cc

theorem kvQ5_run (k extra : Str) (hk : '"' ∉ k) (hx : nonWsHead extra) (cc : Caps) :
    (pmatches kvQ5 (' ' :: '"' :: (k ++ '"' :: ';' :: '\n' :: extra)) cc).head? =
      some (extra, (5, k) :: cc) ∧
    pmatches kvQ5 (' ' :: '"' :: (k ++ '"' :: ';' :: '\n' :: extra)) cc ≠ [] := by
  unfold kvQ5
  rw [pmatches_seq, pmatches_starG_cls]
  have hrun : runG spaceCls (' ' :: '"' :: (k ++ '"' :: ';' :: '\n' :: extra)) =
      ['"' :: (k ++ '"' :: ';' :: '\n' :: extra),
       ' ' :: '"' :: (k ++ '"' :: ';' :: '\n' :: extra)] := by
    rw [runG, if_pos (by decide), runG, if_neg (by decide)]
    rfl
  rw [hrun]
  simp only [List.map_cons, List.map_nil]
  have h6 := kvQ6_run k extra hk hx cc
  constructor
  · rw [cmap_pair_head (f := fun r : Str × Caps => pmatches kvQ6 r.1 r.2)
      ('"' :: (k ++ '"' :: ';' :: '\n' :: extra), cc)
      (' ' :: '"' :: (k ++ '"' :: ';' :: '\n' :: extra), cc) h6.2]
    exact h6.1
  · exact cmap_pair_ne_nil (f := fun r : Str × Caps => pmatches kvQ6 r.1 r.2)
      ('"' :: (k ++ '"' :: ';' :: '\n' :: extra), cc)
      (' ' :: '"' :: (k ++ '"' :: ';' :: '\n' :: extra), cc) h6.2

theorem kvQ4_run (k extra : Str) (hk : '"' ∉ k) (hx : nonWsHead extra) (cc : Caps) :
    (pmatches kvQ4 ('=' :: ' ' :: '"' :: (k ++ '"' :: ';' :: '\n' :: extra)) cc).head? =
      some (extra, (5, k) :: cc) ∧
    pmatches kvQ4 ('=' :: ' ' :: '"' :: (k ++ '"' :: ';' :: '\n' :: extra)) cc ≠ [] := by
  unfold kvQ4
  rw [show ('=' :: ' ' :: '"' :: (k ++ '"' :: ';' :: '\n' :: extra)) =
    ['='] ++ (' ' :: '"' :: (k ++ '"' :: ';' :: '\n' :: extra)) from rfl, pmatches_seq_lit]
  exact kvQ5_run k extra hk hx cc

theorem kvQ3_run (k extra : Str) (hk : '"' ∉ k) (hx : nonWsHead extra) (cc : Caps) :
    (pmatches kvQ3 (' ' :: '=' :: ' ' :: '"' :: (k ++ '"' :: ';' :: '\n' :: extra)) cc).head? =
      some (extra, (5, k) :: cc) ∧
    pmatches kvQ3 (' ' :: '=' :: ' ' :: '"' :: (k ++ '"' :: ';' :: '\n' :: extra)) cc ≠ [] := by
  unfold kvQ3
  rw [pmatches_seq, pmatches_starG_cls]
  have hrun : runG spaceCls (' ' :: '=' :: ' ' :: '"' :: (k ++ '"' :: ';' :: '\n' :: extra)) =
      ['=' :: ' ' :: '"' :: (k ++ '"' :: ';' :: '\n' :: extra),
       ' ' :: '=' :: ' ' :: '"' :: (k ++ '"' :: ';' :: '\n' :: extra)] := by
    rw [runG, if_pos (by decide), runG, if_neg (by decide)]
    rfl
  rw [hrun]
  simp only [List.map_cons, List.map_nil]
  have h4 := kvQ4_run k extra hk hx cc
  constructor
  · rw [cmap_pair_head (f := fun r : Str × Caps => pmatches kvQ4 r.1 r.2)
      ('=' :: ' ' :: '"' :: (k ++ '"' :: ';' :: '\n' :: extra), cc)
      (' ' :: '=' :: ' ' :: '"' :: (k ++ '"' :: ';' :: '\n' :: extra), cc) h4.2]
    exact h4.1
  · exact cmap_pair_ne_nil (f := fun r : Str × Caps => pmatches kvQ4 r.1 r.2)
      ('=' :: ' ' :: '"' :: (k ++ '"' :: ';' :: '\n' :: extra), cc)
      (' ' :: '=' :: ' ' :: '"' :: (k ++ '"' :: ';' :: '\n' :: extra), cc) h4.2

theorem kvQ2_run (k extra : Str) (hk : '"' ∉ k) (hx : nonWsHead extra) (cc : Caps) :
    (pmatches kvQ2 ('"' :: ' ' :: '=' :: ' ' :: '"' :: (k ++ '"' :: ';' :: '\n' :: extra)) cc).head? =
      some (extra, (5, k) :: cc) ∧
    pmatches kvQ2 ('"' :: ' ' :: '=' :: ' ' :: '"' :: (k ++ '"' :: ';' :: '\n' :: extra)) cc ≠ [] := by
  unfold kvQ2
  rw [show ('"' :: ' ' :: '=' :: ' ' :: '"' :: (k ++ '"' :: ';' :: '\n' :: extra)) =
    ['"'] ++ (' ' :: '=' :: ' ' :: '"' :: (k ++ '"' :: ';' :: '\n' :: extra)) from rfl,
    pmatches_seq_lit]
  exact kvQ3_run k extra hk hx cc

theorem kvQ2_fail {a : Char} (t : Str) (cc : Caps) (ha : a ≠ '"') :
    pmatches kvQ2 (a :: t) cc = [] := by
  unfold kvQ2
  exact pmatches_seq_lit_fail _ _ (isPrefixOf_cons_false (fun h => ha h.symm))

theorem kvQ1_scan (k extra : Str) (hk : '"' ∉ k) (hx : nonWsHead extra) (cc : Caps) :
    (pmatches kvQ1 (k ++ '"' :: ' ' :: '=' :: ' ' :: '"' :: (k ++ '"' :: ';' :: '\n' :: extra)) cc).head? =
      some (extra, (5, k) :: (4, k) :: cc) ∧
    pmatches kvQ1 (k ++ '"' :: ' ' :: '=' :: ' ' :: '"' :: (k ++ '"' :: ';' :: '\n' :: extra)) cc ≠ [] := by
  unfold kvQ1
  have h2 := kvQ2_run k extra hk hx ((4, k) :: cc)
  have h := grp_lazy_scan (i := 4) (f := dotAll) (Q := kvQ2)
    (k := k) (X := '"' :: ' ' :: '=' :: ' ' :: '"' :: (k ++ '"' :: ';' :: '\n' :: extra)) cc
    (fun x _ => rfl)
    (by
      intro e he ccc
      rcases mem_dropsAlong he with ⟨a, t, rfl, hak⟩
      exact kvQ2_fail t ccc (fun h => hk (h ▸ hak)))
    h2.2
  refine ⟨?_, h.2⟩
  rw [h.1, h2.1]

/-- The decisive positive lemma for the record tail: on
`"key" = "key";<newline><extra>` with a quote-free key, the first reported
match of `"(.*?)" *= *"(.*?)";\s*\n` captures the key as group 4 and group 5
and stops exactly at `extra`. -/
theorem keyValuePart_run (k extra : Str) (hk : '"' ∉ k) (hx : nonWsHead extra) (cc : Caps) :
    (pmatches keyValuePart
        ('"' :: (k ++ '"' :: ' ' :: '=' :: ' ' :: '"' :: (k ++ '"' :: ';' :: '\n' :: extra))) cc).head? =
      some (extra, (5, k) :: (4, k) :: cc) ∧
    pmatches keyValuePart
        ('"' :: (k ++ '"' :: ' ' :: '=' :: ' ' :: '"' :: (k ++ '"' :: ';' :: '\n' :: extra))) cc ≠ [] := by
  unfold keyValuePart
  rw [show ('"' :: (k ++ '"' :: ' ' :: '=' :: ' ' :: '"' :: (k ++ '"' :: ';' :: '\n' :: extra))) =
    ['"'] ++ (k ++ '"' :: ' ' :: '=' :: ' ' :: '"' :: (k ++ '"' :: ';' :: '\n' :: extra)) from rfl,
    pmatches_seq_lit]
  exact kvQ1_scan k extra hk hx cc

/-! ## The master lemma: the first match of the record pattern on a rendered
entry -/

/-- The first reported match of the whole record pattern on the text
`/*<interior>*/<newline>"key" = "key";<newline><extra>`: no section headers
(group 1 captures `''`, group 2 never fires), group 3 captures the whole
block-comment span, groups 4 and 5 capture the key, and matching stops
exactly at `extra`.  `Hfar` discharges all backtracking branches in which
the greedy `[^;]*` overshoots into the key/value region: any such branch
resumes right after some later newline and must fail. -/
theorem record_head_match (I k extra : Str)
    (hIs : ';' ∉ I)
    (hIn : '\n' ∉ I)
    (hk : '"' ∉ k)
    (hx : nonWsHead extra)
    (hnoHB : pmatches headerBlock
      ('/' :: '*' :: (I ++ '*' :: '/' :: '\n' ::
        ('"' :: (k ++ '"' :: ' ' :: '=' :: ' ' :: '"' :: (k ++ '"' :: ';' :: '\n' :: extra))))) [] = [])
    (Hfar : ∀ u v,
      ('"' :: (k ++ '"' :: ' ' :: '=' :: ' ' :: '"' :: (k ++ '"' :: ';' :: '\n' :: extra))) =
        u ++ '\n' :: v → pmatches keyValuePart v [] = []) :
    (pmatches HEADER_COMMENT_KEY_VALUE_TUPLES_REGEX
        ('/' :: '*' :: (I ++ '*' :: '/' :: '\n' ::
          ('"' :: (k ++ '"' :: ' ' :: '=' :: ' ' :: '"' :: (k ++ '"' :: ';' :: '\n' :: extra))))) []).head? =
      some (extra,
        [(5, k), (4, k), (3, '/' :: '*' :: (I ++ '*' :: '/' :: '\n' :: [])), (1, ([] : Str))]) := by
  set rest : Str :=
    '"' :: (k ++ '"' :: ' ' :: '=' :: ' ' :: '"' :: (k ++ '"' :: ';' :: '\n' :: extra)) with hrest_def
  set T : Str := '/' :: '*' :: (I ++ '*' :: '/' :: '\n' :: rest) with hT_def
  set RAW3 : Str := '/' :: '*' :: (I ++ '*' :: '/' :: '\n' :: []) with hRAW3_def
  set c₁ : Caps := [(1, ([] : Str))] with hc₁_def
  have hTsplit : T = RAW3 ++ rest := by
    rw [hT_def, hRAW3_def]
    simp [List.append_assoc]
  have hcapture : T.take (T.length - rest.length) = RAW3 := by
    have hlen : T.length - rest.length = RAW3.length := by
      rw [hTsplit]
      simp [List.length_append]
    rw [hlen, hTsplit, take_len_append]
  -- group 1: the header star matches only the empty iteration
  have hg1 : pmatches (.grp 1 (.starG (.grp 2 headerBlock))) T [] = [(T, c₁)] := by
    rw [pmatches_grp, pmatches_starG, pmatches_grp, hnoHB]
    simp [cmap]
  -- the whole pattern
  unfold HEADER_COMMENT_KEY_VALUE_TUPLES_REGEX
  rw [pmatches_seq, hg1, cmap_cons, cmap_nil, List.append_nil]
  rw [pmatches_seq, pmatches_grp, cmap_map]
  have hY := keyValuePart_run k extra hk hx ((3, RAW3) :: c₁)
  set F := fun r : Str × Caps =>
    pmatches keyValuePart r.1 ((3, T.take (T.length - r.1.length)) :: r.2) with hF
  set Y := pmatches keyValuePart rest ((3, RAW3) :: c₁) with hY_def
  have hall : ∀ r ∈ pmatches commentPart T c₁, F r = [] ∨ F r = Y := by
    intro r hr
    rcases commentPart_cut hr with ⟨P, hTP, hPs, hc⟩
    have h0 : (I ++ ['*', '/']) ++ '\n' :: rest = (P ++ ['*', '/']) ++ '\n' :: r.1 := by
      have h0' : I ++ '*' :: '/' :: '\n' :: rest = P ++ '*' :: '/' :: '\n' :: r.1 := by
        have hh := hT_def.symm.trans hTP
        simp only [List.cons.injEq, true_and] at hh
        exact hh
      rw [List.append_assoc, List.append_assoc]
      exact h0'
    have hnl : '\n' ∉ I ++ ['*', '/'] := by
      intro hm
      rcases List.mem_append.mp hm with hm | hm
      · exact hIn hm
      · simp at hm
    rcases occ_in_right (I ++ ['*', '/']) ('\n' :: rest) (P ++ ['*', '/']) r.1 hnl h0
      with ⟨w, hw1, hw2⟩
    cases w with
    | nil =>
      right
      have hrest1 : rest = r.1 := by
        simp only [List.nil_append, List.cons.injEq, true_and] at hw2
        exact hw2
      show pmatches keyValuePart r.1 ((3, T.take (T.length - r.1.length)) :: r.2) = Y
      rw [← hrest1, hcapture, hc, hY_def]
    | cons w₀ w' =>
      left
      have hw2' : rest = w' ++ '\n' :: r.1 := by
        rw [List.cons_append] at hw2
        simp only [List.cons.injEq] at hw2
        exact hw2.2
      have hfar := Hfar w' r.1 hw2'
      show pmatches keyValuePart r.1 ((3, T.take (T.length - r.1.length)) :: r.2) = []
      rw [pmatches_caps_nil_iff]
      exact hfar
  have hex : ∃ r ∈ pmatches commentPart T c₁, F r ≠ [] := by
    refine ⟨(rest, c₁), ?_, ?_⟩
    · exact commentPart_canonical I rest c₁ hIs
    · show pmatches keyValuePart rest ((3, T.take (T.length - rest.length)) :: c₁) ≠ []
      rw [hcapture]
      exact hY.2
  show (cmap F (pmatches commentPart T c₁)).head? = _
  rw [head_cmap_const hall hex, hY_def, hY.1]

/-! ## Discharging the far-cut and header obligations -/

/-- The record pattern's tail needs four quotes to match. -/
theorem minC_quote_keyValuePart : minC '"' keyValuePart = 4 := by decide

/-- When nothing follows the entry, every overshooting branch fails: after
any later newline, fewer than four quotes remain. -/
theorem far_fail_nil (k : Str) (hk : '"' ∉ k) :
    ∀ u v, ('"' :: (k ++ '"' :: ' ' :: '=' :: ' ' :: '"' :: (k ++ '"' :: ';' :: '\n' :: ([] : Str)))) =
        u ++ '\n' :: v → pmatches keyValuePart v [] = [] := by
  intro u v heq
  apply pmatches_eq_nil_of_count (x := '"')
  rw [minC_quote_keyValuePart]
  cases u with
  | nil =>
    rw [List.nil_append] at heq
    injection heq with h1 h2
    exact absurd h1 (by decide)
  | cons u₀ u' =>
    have hu₀ : u₀ = '"' := by
      rw [List.cons_append] at heq
      injection heq with h1 h2
      exact h1.symm
    have hcount :
        ('"' :: (k ++ '"' :: ' ' :: '=' :: ' ' :: '"' :: (k ++ '"' :: ';' :: '\n' :: ([] : Str)))).count '"' = 4 := by
      simp [List.count_cons, List.count_append, List.count_eq_zero.mpr hk]
    rw [heq] at hcount
    rw [List.cons_append] at hcount
    simp only [List.count_cons, List.count_append, hu₀] at hcount
    simp at hcount
    omega

/-- The header-block pattern fails whenever `/***` is not at the front. -/
theorem headerBlock_fail {s : Str} (h : ("/***".toList).isPrefixOf s = false) :
    pmatches headerBlock s [] = [] := by
  unfold headerBlock
  exact pmatches_seq_lit_fail _ _ h

/-! ## Splitting the raw block-comment capture into comments -/

/-- While the lazy `(.*?)` of `/\* (.*?) \*/` is still inside a `*/`-free
comment text, the closing ` */` never matches. -/
theorem inner_lit_fail (d : Str) (hd : d ≠ []) (hss_d : hasStarSlash d = false) :
    ([' ', '*', '/'].isPrefixOf (d ++ (' ' :: '*' :: '/' :: '\n' :: []))) = false := by
  by_contra h
  have h' : [' ', '*', '/'].isPrefixOf (d ++ (' ' :: '*' :: '/' :: '\n' :: [])) = true :=
    Bool.not_eq_false _ ▸ h
  have hdec := prefix_decomp h'
  cases d with
  | nil => exact hd rfl
  | cons d₀ d' =>
    rw [List.cons_append] at hdec
    injection hdec with h₀ hdec
    cases d' with
    | nil =>
      rw [List.nil_append] at hdec
      injection hdec with h₁ htl
      exact absurd h₁ (by decide)
    | cons d₁ d'' =>
      rw [List.cons_append] at hdec
      injection hdec with h₁ hdec
      cases d'' with
      | nil =>
        rw [List.nil_append] at hdec
        injection hdec with h₂ htl
        exact absurd h₂ (by decide)
      | cons d₂ d''' =>
        rw [List.cons_append] at hdec
        injection hdec with h₂ hdec
        subst h₀
        subst h₁
        subst h₂
        simp [hasStarSlash] at hss_d

/-- Splitting `/* c */\n` when `c` contains no newline and no `*/`: exactly
one comment is found, namely `c` itself. -/
theorem inner_split (c : Str) (hnl : '\n' ∉ c) (hss : hasStarSlash c = false) :
    findAll INNER_COMMENT_REGEX ('/' :: '*' :: ' ' :: (c ++ ' ' :: '*' :: '/' :: '\n' :: [])) =
      [[(1, c)]] := by
  have hsucc : pmatches (.lit " */".toList) (' ' :: '*' :: '/' :: '\n' :: [])
      ((1, c) :: ([] : Caps)) = [(['\n'], [(1, c)])] := by
    rw [pmatches_lit, if_pos (by simp [List.isPrefixOf])]
    rfl
  have hscan := grp_lazy_scan (i := 1) (f := dotNoNL) (Q := .lit " */".toList)
    (k := c) (X := ' ' :: '*' :: '/' :: '\n' :: []) ([] : Caps)
    (by
      intro x hx
      simp only [dotNoNL, bne_iff_ne, ne_eq, decide_eq_true_eq]
      intro hxe
      exact hnl (hxe ▸ hx))
    (by
      intro e he ccc
      rcases mem_dropsAlong_decomp he with ⟨d, hd, ⟨u, hu⟩, rfl⟩
      have hssd : hasStarSlash d = false := by
        by_contra hh
        have htrue : hasStarSlash d = true := Bool.not_eq_false _ ▸ hh
        have := hasStarSlash_of_append_right u d htrue
        rw [← hu, hss] at this
        simp at this
      rw [pmatches_lit]
      rw [show (" */".toList) = [' ', '*', '/'] from rfl, inner_lit_fail d hd hssd]
      rfl)
    (by rw [hsucc]; simp)
  have hhead : (pmatches INNER_COMMENT_REGEX
      ('/' :: '*' :: ' ' :: (c ++ ' ' :: '*' :: '/' :: '\n' :: [])) []).head? =
      some (['\n'], [(1, c)]) := by
    unfold INNER_COMMENT_REGEX
    rw [show ('/' :: '*' :: ' ' :: (c ++ ' ' :: '*' :: '/' :: '\n' :: [])) =
      "/* ".toList ++ (c ++ ' ' :: '*' :: '/' :: '\n' :: []) from rfl, pmatches_seq_lit]
    rw [hscan.1, hsucc]
    rfl
  rw [findAll_progress hhead (by simp)]
  have h1 : findAll INNER_COMMENT_REGEX ['\n'] = [] := by
    apply findAll_eq_nil
    rintro s' ⟨u, hu⟩
    cases u with
    | nil =>
      rw [List.nil_append] at hu
      rw [← hu]
      decide
    | cons u₀ u' =>
      rw [List.cons_append] at hu
      injection hu with h₀ h₁
      rcases List.append_eq_nil.mp h₁.symm with ⟨-, rfl⟩
      decide
  rw [h1]

/-- The comment splitter needs two spaces (one after `/*`, one before `*/`);
on a space-free raw capture `/*TEXT*/\n` it finds nothing. -/
theorem inner_split_nospace (c : Str) (hsp : ' ' ∉ c) :
    findAll INNER_COMMENT_REGEX ('/' :: '*' :: (c ++ '*' :: '/' :: '\n' :: [])) = [] := by
  apply findAll_eq_nil
  intro s' hs'
  apply pmatches_eq_nil_of_count (x := ' ')
  have hm : minC ' ' INNER_COMMENT_REGEX = 2 := by decide
  rw [hm]
  have hle := count_le_of_suffix (x := ' ') hs'
  have hcount : ('/' :: '*' :: (c ++ '*' :: '/' :: '\n' :: [])).count ' ' = 0 := by
    simp [List.count_cons, List.count_append, List.count_eq_zero.mpr hsp]
  omega

/-! ## The round trip of a rendered entry (C1) -/

/-- An empty input has no record match (the pattern needs four quotes). -/
theorem findAll_record_nil : findAll HEADER_COMMENT_KEY_VALUE_TUPLES_REGEX [] = [] := by
  apply findAll_nil_of_none
  rw [pmatches_eq_nil_of_count (x := '"') [] (by decide)]
  rfl

/-- C1 counterexample: the entry with comment `;` and key `k` satisfies the
claim's hypotheses (no `*/` in the comment, no unescaped quote in the key,
no quote in the value), yet re-parsing its rendering yields no record at
all — the `[^;]*` in the block-comment pattern cannot cross the `;`. -/
theorem claim_C1_roundtrip_counterexample :
    hasStarSlash ";".toList = false ∧
    hasUnescapedQuote "k".toList = false ∧
    '"' ∉ escaped_key "k".toList ∧
    extract_header_comment_key_value_tuples_from_file
      (write_entry_to_file ";".toList "k".toList) = [] := by
  refine ⟨by decide, by decide, by decide, ?_⟩
  decide

/-- C1 (amended): for an entry whose comment contains no `*/`, no `;` and no
newline, and whose key as written (the escaped key) contains no double
quote, re-parsing the rendered entry yields exactly one record: empty
header, the comment, and the (escaped) key as both key and value — and on
such keys the escaping is the identity. -/
theorem claim_C1_roundtrip_amended (c k : Str)
    (hc1 : ';' ∉ c) (hc2 : '\n' ∉ c) (hc3 : hasStarSlash c = false)
    (hk1 : hasUnescapedQuote k = false) (hk2 : '"' ∉ escaped_key k) :
    extract_header_comment_key_value_tuples_from_file (write_entry_to_file c k) =
      [(([] : Str), [c], k, k)] ∧ escaped_key k = k := by
  have hkq : '"' ∉ k := fun hm => hk2 (mem_escaped_key_of_mem hm)
  have hesc : escaped_key k = k := escaped_key_id k.length k (Nat.le_refl _) hkq
  refine ⟨?_, hesc⟩
  have htext : write_entry_to_file c k =
      '/' :: '*' :: ((' ' :: (c ++ [' '])) ++ '*' :: '/' :: '\n' ::
        ('"' :: (k ++ '"' :: ' ' :: '=' :: ' ' :: '"' :: (k ++ '"' :: ';' :: '\n' :: ([] : Str))))) := by
    unfold write_entry_to_file
    rw [hesc]
    simp [List.append_assoc]
  rw [htext]
  have hIs : ';' ∉ ' ' :: (c ++ [' ']) := by
    intro hm
    rcases List.mem_cons.mp hm with hm | hm
    · exact absurd hm (by decide)
    · rcases List.mem_append.mp hm with hm | hm
      · exact hc1 hm
      · exact absurd hm (by decide)
  have hIn : '\n' ∉ ' ' :: (c ++ [' ']) := by
    intro hm
    rcases List.mem_cons.mp hm with hm | hm
    · exact absurd hm (by decide)
    · rcases List.mem_append.mp hm with hm | hm
      · exact hc2 hm
      · exact absurd hm (by decide)
  have hmaster := record_head_match (' ' :: (c ++ [' '])) k [] hIs hIn hkq (Or.inl rfl)
    (headerBlock_fail (by simp [List.isPrefixOf]))
    (far_fail_nil k hkq)
  unfold extract_header_comment_key_value_tuples_from_file
  rw [findAll_progress hmaster (by simp)]
  rw [findAll_record_nil]
  simp only [List.map_cons, List.map_nil]
  have hg1 : grpGet [(5, k), (4, k),
      (3, '/' :: '*' :: ((' ' :: (c ++ [' '])) ++ '*' :: '/' :: '\n' :: [])), (1, ([] : Str))] 1 =
      ([] : Str) := by
    simp [grpGet]
  have hg3 : grpGet [(5, k), (4, k),
      (3, '/' :: '*' :: ((' ' :: (c ++ [' '])) ++ '*' :: '/' :: '\n' :: [])), (1, ([] : Str))] 3 =
      '/' :: '*' :: ((' ' :: (c ++ [' '])) ++ '*' :: '/' :: '\n' :: []) := by
    simp [grpGet]
  have hg4 : grpGet [(5, k), (4, k),
      (3, '/' :: '*' :: ((' ' :: (c ++ [' '])) ++ '*' :: '/' :: '\n' :: [])), (1, ([] : Str))] 4 =
      k := by
    simp [grpGet]
  have hg5 : grpGet [(5, k), (4, k),
      (3, '/' :: '*' :: ((' ' :: (c ++ [' '])) ++ '*' :: '/' :: '\n' :: [])), (1, ([] : Str))] 5 =
      k := by
    simp [grpGet]
  rw [hg1, hg3, hg4, hg5]
  have hshape : '/' :: '*' :: ((' ' :: (c ++ [' '])) ++ '*' :: '/' :: '\n' :: []) =
      '/' :: '*' :: ' ' :: (c ++ ' ' :: '*' :: '/' :: '\n' :: []) := by
    simp [List.append_assoc]
  rw [hshape, inner_split c hc2 hc3]
  simp [grpGet]

/-- Witness for the amended C1 at the spec's example entry. -/
theorem claim_C1_roundtrip_amended_witness :
    (';' ∉ "Button label".toList ∧ '\n' ∉ "Button label".toList ∧
      hasStarSlash "Button label".toList = false ∧
      hasUnescapedQuote "LOGIN_BTN".toList = false ∧
      '"' ∉ escaped_key "LOGIN_BTN".toList) ∧
    extract_header_comment_key_value_tuples_from_file
        (write_entry_to_file "Button label".toList "LOGIN_BTN".toList) =
      [(([] : Str), ["Button label".toList], "LOGIN_BTN".toList, "LOGIN_BTN".toList)] ∧
    escaped_key "LOGIN_BTN".toList = "LOGIN_BTN".toList := by
  refine ⟨⟨by decide, by decide, by decide, by decide, by decide⟩, ?_⟩
  exact claim_C1_roundtrip_amended "Button label".toList "LOGIN_BTN".toList
    (by decide) (by decide) (by decide) (by decide) (by decide)

/-! ## A malformed trailing entry yields no record (C7) -/

/-- Far-cut failures when the entry is followed by a truncated entry
(`/* c₂ */\n"k₂" = "k₂` with no terminating `;`): after the record's own
newline the tail starts with `/`, not `"`; after any later newline fewer
than four quotes remain. -/
theorem far_fail_tail (k c₂ k₂ : Str) (hkn : '\n' ∉ k)
    (hc₂q : '"' ∉ c₂) (hk₂q : '"' ∉ k₂) :
    ∀ u v, ('"' :: (k ++ '"' :: ' ' :: '=' :: ' ' :: '"' :: (k ++ '"' :: ';' :: '\n' ::
        ('/' :: '*' :: ' ' :: (c₂ ++ ' ' :: '*' :: '/' :: '\n' ::
          ('"' :: (k₂ ++ '"' :: ' ' :: '=' :: ' ' :: '"' :: k₂))))))) =
      u ++ '\n' :: v → pmatches keyValuePart v [] = [] := by
  set TT : Str := '/' :: '*' :: ' ' :: (c₂ ++ ' ' :: '*' :: '/' :: '\n' ::
    ('"' :: (k₂ ++ '"' :: ' ' :: '=' :: ' ' :: '"' :: k₂))) with hTT_def
  set A : Str := '"' :: (k ++ '"' :: ' ' :: '=' :: ' ' :: '"' :: (k ++ ['"', ';'])) with hA_def
  intro u v heq
  have hsplit : ('"' :: (k ++ '"' :: ' ' :: '=' :: ' ' :: '"' :: (k ++ '"' :: ';' :: '\n' :: TT))) =
      A ++ '\n' :: TT := by
    rw [hA_def]
    simp [List.append_assoc]
  rw [hsplit] at heq
  have hnlA : '\n' ∉ A := by
    rw [hA_def]
    intro hm
    rcases List.mem_cons.mp hm with hm | hm
    · exact absurd hm (by decide)
    rcases List.mem_append.mp hm with hm | hm
    · exact hkn hm
    rcases List.mem_cons.mp hm with hm | hm
    · exact absurd hm (by decide)
    rcases List.mem_cons.mp hm with hm | hm
    · exact absurd hm (by decide)
    rcases List.mem_cons.mp hm with hm | hm
    · exact absurd hm (by decide)
    rcases List.mem_cons.mp hm with hm | hm
    · exact absurd hm (by decide)
    rcases List.mem_cons.mp hm with hm | hm
    · exact absurd hm (by decide)
    rcases List.mem_append.mp hm with hm | hm
    · exact hkn hm
    · exact absurd hm (by decide)
  rcases occ_in_right A ('\n' :: TT) u v hnlA heq with ⟨w, hw1, hw2⟩
  cases w with
  | nil =>
    have hv : v = TT := by
      simp only [List.nil_append, List.cons.injEq, true_and] at hw2
      exact hw2.symm
    rw [hv, hTT_def]
    unfold keyValuePart
    exact pmatches_seq_lit_fail _ _ (isPrefixOf_cons_false (by decide))
  | cons w₀ w' =>
    have hTTw : TT = w' ++ '\n' :: v := by
      rw [List.cons_append] at hw2
      simp only [List.cons.injEq] at hw2
      exact hw2.2
    apply pmatches_eq_nil_of_count (x := '"')
    rw [minC_quote_keyValuePart]
    have hcTT : TT.count '"' = 3 := by
      rw [hTT_def]
      simp [List.count_cons, List.count_append,
        List.count_eq_zero.mpr hc₂q, List.count_eq_zero.mpr hk₂q]
    rw [hTTw] at hcTT
    simp only [List.count_append, List.count_cons] at hcTT
    simp at hcTT
    omega

/-- C7: the parser returns the ordered matches of the record grammar, and a
trailing entry lacking its terminating `;` yields no record: appending the
truncated entry `/* c₂ */\n"k₂" = "k₂` after a well-formed entry leaves the
parse result exactly the well-formed entry's record — the malformed tail is
silently dropped, not matched partially and not reported as an error. -/
theorem claim_C7_malformed_tail_dropped (c k c₂ k₂ : Str)
    (hc1 : ';' ∉ c) (hc2 : '\n' ∉ c) (hc3 : hasStarSlash c = false)
    (hkq : '"' ∉ k) (hkn : '\n' ∉ k)
    (hc₂q : '"' ∉ c₂) (hc₂n : '\n' ∉ c₂)
    (hk₂q : '"' ∉ k₂) (hk₂n : '\n' ∉ k₂) :
    extract_header_comment_key_value_tuples_from_file
      (write_entry_to_file c k ++
        ("/* ".toList ++ c₂ ++ " */\n".toList ++ ['"'] ++ k₂ ++ "\" = \"".toList ++ k₂)) =
      [(([] : Str), [c], k, k)] := by
  have hesc : escaped_key k = k := escaped_key_id k.length k (Nat.le_refl _) hkq
  set TT : Str := '/' :: '*' :: ' ' :: (c₂ ++ ' ' :: '*' :: '/' :: '\n' ::
    ('"' :: (k₂ ++ '"' :: ' ' :: '=' :: ' ' :: '"' :: k₂))) with hTT_def
  have htext : write_entry_to_file c k ++
      ("/* ".toList ++ c₂ ++ " */\n".toList ++ ['"'] ++ k₂ ++ "\" = \"".toList ++ k₂) =
      '/' :: '*' :: ((' ' :: (c ++ [' '])) ++ '*' :: '/' :: '\n' ::
        ('"' :: (k ++ '"' :: ' ' :: '=' :: ' ' :: '"' :: (k ++ '"' :: ';' :: '\n' :: TT)))) := by
    unfold write_entry_to_file
    rw [hesc, hTT_def]
    simp [List.append_assoc]
  rw [htext]
  have hIs : ';' ∉ ' ' :: (c ++ [' ']) := by
    intro hm
    rcases List.mem_cons.mp hm with hm | hm
    · exact absurd hm (by decide)
    · rcases List.mem_append.mp hm with hm | hm
      · exact hc1 hm
      · exact absurd hm (by decide)
  have hIn : '\n' ∉ ' ' :: (c ++ [' ']) := by
    intro hm
    rcases List.mem_cons.mp hm with hm | hm
    · exact absurd hm (by decide)
    · rcases List.mem_append.mp hm with hm | hm
      · exact hc2 hm
      · exact absurd hm (by decide)
  have hx : nonWsHead TT := by
    rw [hTT_def]
    exact Or.inr ⟨'/', _, rfl, by decide⟩
  have hmaster := record_head_match (' ' :: (c ++ [' '])) k TT hIs hIn hkq hx
    (headerBlock_fail (by simp [List.isPrefixOf]))
    (by rw [hTT_def]; exact far_fail_tail k c₂ k₂ hkn hc₂q hk₂q)
  unfold extract_header_comment_key_value_tuples_from_file
  rw [findAll_progress hmaster (by simp [hTT_def]; omega)]
  have hTTnil : findAll HEADER_COMMENT_KEY_VALUE_TUPLES_REGEX TT = [] := by
    apply findAll_eq_nil
    intro s' hs'
    apply pmatches_eq_nil_of_count (x := '\n')
    rw [minC_newline_record]
    have hle := count_le_of_suffix (x := '\n') hs'
    have hcTT : TT.count '\n' = 1 := by
      rw [hTT_def]
      simp [List.count_cons, List.count_append,
        List.count_eq_zero.mpr hc₂n, List.count_eq_zero.mpr hk₂n]
    omega
  rw [hTTnil]
  simp only [List.map_cons, List.map_nil]
  have hg1 : grpGet [(5, k), (4, k),
      (3, '/' :: '*' :: ((' ' :: (c ++ [' '])) ++ '*' :: '/' :: '\n' :: [])), (1, ([] : Str))] 1 =
      ([] : Str) := by
    simp [grpGet]
  have hg3 : grpGet [(5, k), (4, k),
      (3, '/' :: '*' :: ((' ' :: (c ++ [' '])) ++ '*' :: '/' :: '\n' :: [])), (1, ([] : Str))] 3 =
      '/' :: '*' :: ((' ' :: (c ++ [' '])) ++ '*' :: '/' :: '\n' :: []) := by
    simp [grpGet]
  have hg4 : grpGet [(5, k), (4, k),
      (3, '/' :: '*' :: ((' ' :: (c ++ [' '])) ++ '*' :: '/' :: '\n' :: [])), (1, ([] : Str))] 4 =
      k := by
    simp [grpGet]
  have hg5 : grpGet [(5, k), (4, k),
      (3, '/' :: '*' :: ((' ' :: (c ++ [' '])) ++ '*' :: '/' :: '\n' :: [])), (1, ([] : Str))] 5 =
      k := by
    simp [grpGet]
  rw [hg1, hg3, hg4, hg5]
  have hshape : '/' :: '*' :: ((' ' :: (c ++ [' '])) ++ '*' :: '/' :: '\n' :: []) =
      '/' :: '*' :: ' ' :: (c ++ ' ' :: '*' :: '/' :: '\n' :: []) := by
    simp [List.append_assoc]
  rw [hshape, inner_split c hc2 hc3]
  simp [grpGet]

/-- Witness for C7 at a concrete input. -/
theorem claim_C7_malformed_tail_dropped_witness :
    extract_header_comment_key_value_tuples_from_file
      (write_entry_to_file "Button".toList "K1".toList ++
        ("/* ".toList ++ "Other".toList ++ " */\n".toList ++ ['"'] ++ "K2".toList ++
          "\" = \"".toList ++ "K2".toList)) =
      [(([] : Str), ["Button".toList], "K1".toList, "K1".toList)] :=
  claim_C7_malformed_tail_dropped "Button".toList "K1".toList "Other".toList "K2".toList
    (by decide) (by decide) (by decide) (by decide) (by decide)
    (by decide) (by decide) (by decide) (by decide)

/-! ## A spaceless block comment still matches, with empty comments (C10) -/

/-- C10: a record whose block comment is written without the spaces
(`/*TEXT*/`) is still matched, but its comments list is empty: the splitter
`/\* (.*?) \*/` requires exactly one space after `/*` and one before `*/`. -/
theorem claim_C10_spaceless_comment (c k : Str)
    (hsp : ' ' ∉ c) (hcs : ';' ∉ c) (hcn : '\n' ∉ c)
    (hstar : c.head? ≠ some '*') (hkq : '"' ∉ k) :
    extract_header_comment_key_value_tuples_from_file
      ("/*".toList ++ c ++ "*/\n".toList ++ ['"'] ++ k ++ "\" = \"".toList ++ k ++
        "\";\n".toList) =
      [(([] : Str), ([] : List Str), k, k)] := by
  have htext : "/*".toList ++ c ++ "*/\n".toList ++ ['"'] ++ k ++ "\" = \"".toList ++ k ++
      "\";\n".toList =
      '/' :: '*' :: (c ++ '*' :: '/' :: '\n' ::
        ('"' :: (k ++ '"' :: ' ' :: '=' :: ' ' :: '"' :: (k ++ '"' :: ';' :: '\n' :: ([] : Str))))) := by
    simp [List.append_assoc]
  rw [htext]
  have hnoHB : pmatches headerBlock
      ('/' :: '*' :: (c ++ '*' :: '/' :: '\n' ::
        ('"' :: (k ++ '"' :: ' ' :: '=' :: ' ' :: '"' :: (k ++ '"' :: ';' :: '\n' :: ([] : Str)))))) [] = [] := by
    apply headerBlock_fail
    cases c with
    | nil => simp [List.isPrefixOf]
    | cons a c' =>
      have ha : a ≠ '*' := by
        intro h
        exact hstar (by rw [h]; rfl)
      simp [List.isPrefixOf, ha]
      exact fun h => absurd h.symm ha
  have hmaster := record_head_match c k [] hcs hcn hkq (Or.inl rfl) hnoHB
    (far_fail_nil k hkq)
  unfold extract_header_comment_key_value_tuples_from_file
  rw [findAll_progress hmaster (by simp)]
  rw [findAll_record_nil]
  simp only [List.map_cons, List.map_nil]
  have hg1 : grpGet [(5, k), (4, k),
      (3, '/' :: '*' :: (c ++ '*' :: '/' :: '\n' :: [])), (1, ([] : Str))] 1 = ([] : Str) := by
    simp [grpGet]
  have hg3 : grpGet [(5, k), (4, k),
      (3, '/' :: '*' :: (c ++ '*' :: '/' :: '\n' :: [])), (1, ([] : Str))] 3 =
      '/' :: '*' :: (c ++ '*' :: '/' :: '\n' :: []) := by
    simp [grpGet]
  have hg4 : grpGet [(5, k), (4, k),
      (3, '/' :: '*' :: (c ++ '*' :: '/' :: '\n' :: [])), (1, ([] : Str))] 4 = k := by
    simp [grpGet]
  have hg5 : grpGet [(5, k), (4, k),
      (3, '/' :: '*' :: (c ++ '*' :: '/' :: '\n' :: [])), (1, ([] : Str))] 5 = k := by
    simp [grpGet]
  rw [hg1, hg3, hg4, hg5, inner_split_nospace c hsp]
  simp

/-- Witness for C10 at the concrete record `/*TEXT*/`. -/
theorem claim_C10_spaceless_comment_witness :
    extract_header_comment_key_value_tuples_from_file
      ("/*".toList ++ "TEXT".toList ++ "*/\n".toList ++ ['"'] ++ "K".toList ++
        "\" = \"".toList ++ "K".toList ++ "\";\n".toList) =
      [(([] : Str), ([] : List Str), "K".toList, "K".toList)] :=
  claim_C10_spaceless_comment "TEXT".toList "K".toList
    (by decide) (by decide) (by decide) (by decide) (by decide)

end JTLocalize
